import Mathlib

/-!
Verification development for the annotation persistence and aggregation core of
`aind-proteomics-annotator-gui`.

The development shallowly embeds the Python modules

  * `utils/atomic_io.py`       (atomic JSON write, retrying read),
  * `utils/consensus.py`       (majority vote consensus, consensus table),
  * `utils/csv_exporter.py`    (CSV export of the consensus table),
  * `models/annotation_store.py` (per-user annotation store, final-label store),
  * `models/block_registry.py` (block discovery registry),

as executable Lean definitions and proves the specified properties about them.

Python dictionaries are modelled as association lists in insertion order
(the iteration order of a `dict`), Python sets as lists up to membership,
machine-independent `int` labels as `Int`, ISO timestamp strings as opaque
`String` values supplied by the caller (each call of `_now_iso()` in the
source observes the current clock; the embedding passes that observed value
as an explicit argument), and filesystem effects as explicit state passing
over an association list from paths to file contents.
-/

/-! ### Definitions: the shallow embedding of the annotation core -/

/-- Dictionary lookup: `m.get(k)` / `m[k]` on a Python `dict` modelled as an
association list in insertion order. Returns the value of the first entry
whose key is `k`. -/
def dictGet {α : Type} : List (String × α) → String → Option α
  | [], _ => none
  | p :: rest, k => if p.1 = k then some p.2 else dictGet rest k

/-- Dictionary assignment: `m[k] = v` on a Python `dict`. If the key is
present its value is replaced in place (insertion order kept), otherwise the
new entry is appended at the end, exactly as CPython dicts behave. -/
def dictSet {α : Type} : List (String × α) → String → α → List (String × α)
  | [], k, v => [(k, v)]
  | p :: rest, k, v => if p.1 = k then (k, v) :: rest else p :: dictSet rest k v

/-- Dictionary deletion: `del m[k]` on a Python `dict`; removes the first
entry whose key is `k` (on a well-formed dict, keys are unique). -/
def dictRemove {α : Type} : List (String × α) → String → List (String × α)
  | [], _ => []
  | p :: rest, k => if p.1 = k then rest else p :: dictRemove rest k

/-- Set insertion: `s.add(x)` on a Python `set`, modelled as a duplicate-free
list considered up to membership. -/
def setAdd (s : List String) (x : String) : List String :=
  if x ∈ s then s else s ++ [x]

/-- Python exception values that the embedded code can raise. -/
inductive PyErr where
  | attributeError
  | ioError
deriving DecidableEq

/-- Split a character list at its last occurrence of a separator character,
returning `none` when the separator does not occur. This embeds the Python
expression `block_id.rsplit("/", 1)` for the separator `"/"` (maxsplit 1
splits at the last occurrence only). -/
def rsplitLast (sep : Char) : List Char → Option (List Char × List Char)
  | [] => none
  | c :: rest =>
    match rsplitLast sep rest with
    | some pr => some (c :: pr.1, pr.2)
    | none => if c = sep then some ([], rest) else none

/-- Metadata for one annotatable block, mirroring the dataclass `BlockInfo`
of `block_registry.py`. -/
structure BlockInfo where
  block_id : String
  path : String
  tiff_files : List String
deriving DecidableEq

/-- The block discovery registry of `block_registry.py`: it carries the data
root and the ordered, scanned list of blocks. The class defines only
`scan`, `all_blocks`, `get_block`, `block_count` and `rescan`. -/
structure BlockRegistry where
  data_root : String
  blocks : List BlockInfo
deriving DecidableEq

/-- Attribute lookup for the call `self._registry.get_absolute_parent_path(block_id)`
made by `AnnotationStore._get_storage_key` and `FinalLabelStore._get_storage_key`.
The `BlockRegistry` class defines no method or attribute of this name, so in
Python the attribute access raises `AttributeError`; the embedding returns
that exception. -/
def BlockRegistry.get_absolute_parent_path (_reg : BlockRegistry) (_block_id : String) :
    Except PyErr String :=
  .error .attributeError

/-- The registry-free fallback branch of `_get_storage_key`: parse the
`block_id` as a relative path, splitting at the last `"/"`; when there is no
separator the result is `("", block_id)`. -/
def get_storage_key_fallback (block_id : String) : String × String :=
  match rsplitLast ('/' : Char) block_id.data with
  | some pr => (String.mk pr.1, String.mk pr.2)
  | none => ("", block_id)

/-- Embedding of `_get_storage_key` (identical in `AnnotationStore` and
`FinalLabelStore`): with a registry the code asks the registry for the
absolute parent path and pairs it with the last path component of the
`block_id`; without one it falls back to string splitting. -/
def get_storage_key (registry : Option BlockRegistry) (block_id : String) :
    Except PyErr (String × String) :=
  match registry with
  | some reg =>
    match reg.get_absolute_parent_path block_id with
    | .error e => .error e
    | .ok absolute_parent =>
      let block_name :=
        if ('/' : Char) ∈ block_id.data then
          match rsplitLast ('/' : Char) block_id.data with
          | some pr => String.mk pr.2
          | none => block_id
        else block_id
      .ok (absolute_parent, block_name)
  | none => .ok (get_storage_key_fallback block_id)

/-- Reconstruction of a `block_id` from a storage key, as performed by
`all_annotations`, `annotated_block_ids` and `all_labels`:
`f"{parent_path}/{block_name}"` when the parent path is truthy (nonempty),
else the bare block name. -/
def flattenId (parent_path block_name : String) : String :=
  if parent_path = "" then block_name else parent_path ++ "/" ++ block_name

/-- One per-user annotation record: `{"label": int, "annotated_at": iso-string}`. -/
structure AnnRec where
  label : Int
  annotated_at : String
deriving DecidableEq

/-- In-memory document of one user's annotation file (`self._data` after
`load_or_create`): username, the two document timestamps, and the two-level
`annotations` mapping from container path to block name to record. -/
structure StoreData where
  username : String
  created_at : String
  updated_at : String
  annotations : List (String × List (String × AnnRec))
deriving DecidableEq

/-- Embedding of `AnnotationStore.load_or_create`: the disk state at the
store's filepath is `none` (no file) or `some raw`. A missing file yields a
fresh empty document which is immediately saved; an existing file is adopted
as-is. Returns the in-memory document and the disk state after the call. -/
def load_or_create (disk : Option StoreData) (username : String) (now : String) :
    StoreData × Option StoreData :=
  match disk with
  | some raw => (raw, some raw)
  | none =>
    let fresh : StoreData :=
      { username := username, created_at := now, updated_at := now, annotations := [] }
    (fresh, some fresh)

/-- Embedding of `AnnotationStore.get_label`: resolve the storage key, then
chain `.get(parent_path, {}).get(block_name, {}).get("label")`. -/
def get_label (d : StoreData) (registry : Option BlockRegistry) (block_id : String) :
    Except PyErr (Option Int) :=
  match get_storage_key registry block_id with
  | .error e => .error e
  | .ok key =>
    .ok ((dictGet ((dictGet d.annotations key.1).getD []) key.2).map AnnRec.label)

/-- Record lookup at the registry-free storage key of `block_id` (the nested
`.get` chain shared by `get_label` and the membership test of `clear_label`). -/
def lookup_record (d : StoreData) (block_id : String) : Option AnnRec :=
  let key := get_storage_key_fallback block_id
  dictGet ((dictGet d.annotations key.1).getD []) key.2

/-- Core of `AnnotationStore.set_label` once the storage key is resolved:
insert or overwrite the record with the current timestamp and bump the
document's `updated_at`. -/
def set_label_key (d : StoreData) (parent_path block_name : String) (label : Int)
    (now : String) : StoreData :=
  let blocks := (dictGet d.annotations parent_path).getD []
  let blocks2 := dictSet blocks block_name { label := label, annotated_at := now }
  { d with annotations := dictSet d.annotations parent_path blocks2, updated_at := now }

/-- Embedding of `AnnotationStore.set_label`: resolve the storage key, mutate
the document, and immediately persist the full document (`self._save()` calls
`atomic_write_json` with `self._data`); the second component of the result is
the disk state after the synchronous save. -/
def set_label (d : StoreData) (registry : Option BlockRegistry) (block_id : String)
    (label : Int) (now : String) : Except PyErr (StoreData × Option StoreData) :=
  match get_storage_key registry block_id with
  | .error e => .error e
  | .ok key =>
    let d2 := set_label_key d key.1 key.2 label now
    .ok (d2, some d2)

/-- Core of `AnnotationStore.clear_label` once the storage key is resolved:
remove the record if present, prune the container mapping when it becomes
empty, and bump `updated_at`; the boolean reports whether a removal happened
(and hence whether `self._save()` ran). On a miss the document is returned
unchanged and nothing is persisted. -/
def clear_label_inner (d : StoreData) (parent_path : String)
    (blocks : List (String × AnnRec)) (block_name now : String) : StoreData × Bool :=
  match dictGet blocks block_name with
  | none => (d, false)
  | some _ =>
    let blocks2 := dictRemove blocks block_name
    let anns2 :=
      if blocks2.isEmpty then dictRemove d.annotations parent_path
      else dictSet d.annotations parent_path blocks2
    ({ d with annotations := anns2, updated_at := now }, true)

def clear_label_key (d : StoreData) (parent_path block_name : String) (now : String) :
    StoreData × Bool :=
  match dictGet d.annotations parent_path with
  | none => (d, false)
  | some blocks => clear_label_inner d parent_path blocks block_name now

/-- Embedding of `AnnotationStore.clear_label`. -/
def clear_label (d : StoreData) (registry : Option BlockRegistry) (block_id : String)
    (now : String) : Except PyErr (StoreData × Bool) :=
  match get_storage_key registry block_id with
  | .error e => .error e
  | .ok key => .ok (clear_label_key d key.1 key.2 now)

/-- Embedding of `AnnotationStore.all_annotations`: flatten the two-level
mapping back into a flat `block_id`-keyed dict, reconstructing each
`block_id` from its storage key. -/
def all_annotations (d : StoreData) : List (String × AnnRec) :=
  d.annotations.foldl
    (fun result p =>
      p.2.foldl (fun result2 q => dictSet result2 (flattenId p.1 q.1) q.2) result)
    []

/-- Embedding of `AnnotationStore.annotated_block_ids`: the set of
reconstructed block ids. -/
def annotated_block_ids (d : StoreData) : List String :=
  d.annotations.foldl
    (fun result p =>
      p.2.foldl (fun result2 q => setAdd result2 (flattenId p.1 q.1)) result)
    []

/-- Well-formedness of a store document as Python maintains it: the outer and
inner mappings are dicts (no duplicate keys), and every block name was
produced by `_get_storage_key`, hence contains no path separator. -/
abbrev WFStore (d : StoreData) : Prop :=
  (d.annotations.map Prod.fst).Nodup ∧
  (∀ p ∈ d.annotations, (p.2.map Prod.fst).Nodup) ∧
  (∀ p ∈ d.annotations, ∀ q ∈ p.2, ('/' : Char) ∉ q.1.data)

/-- The specified structural invariant: the `annotations` mapping never
contains an empty inner container mapping. -/
abbrev NoEmptyInner (d : StoreData) : Prop :=
  ∀ p ∈ d.annotations, p.2 ≠ []

/-- One mutating store operation (registry-free), for reasoning about
arbitrary operation sequences. -/
inductive StoreOp where
  | setOp (block_id : String) (label : Int) (now : String)
  | clearOp (block_id : String) (now : String)

/-- Apply one operation the way `set_label` / `clear_label` do with no
registry configured: resolve the storage key by string splitting, then run
the corresponding core mutation. -/
def applyOp (d : StoreData) : StoreOp → StoreData
  | .setOp b l t =>
    set_label_key d (get_storage_key_fallback b).1 (get_storage_key_fallback b).2 l t
  | .clearOp b t =>
    (clear_label_key d (get_storage_key_fallback b).1 (get_storage_key_fallback b).2 t).1

/-- Apply a sequence of store operations in order. -/
def applyOps (d : StoreData) (ops : List StoreOp) : StoreData :=
  ops.foldl applyOp d

/-- One admin final-label record. -/
structure FinalRec where
  final_label : Int
  set_by : String
  set_at : String
deriving DecidableEq

/-- In-memory document of the shared final-labels file. -/
structure FinalData where
  updated_at : String
  labels : List (String × List (String × FinalRec))
deriving DecidableEq

/-- Embedding of `FinalLabelStore.get_final_label`: same storage-key
resolution as the per-user store, then the nested `.get` chain on `labels`. -/
def get_final_label (d : FinalData) (registry : Option BlockRegistry) (block_id : String) :
    Except PyErr (Option Int) :=
  match get_storage_key registry block_id with
  | .error e => .error e
  | .ok key =>
    .ok ((dictGet ((dictGet d.labels key.1).getD []) key.2).map FinalRec.final_label)

/-- Embedding of `FinalLabelStore.set_final_label`: overwrite the record
unconditionally, bump `updated_at` and persist; the second component is the
disk state after the write. -/
def set_final_label (d : FinalData) (registry : Option BlockRegistry) (block_id : String)
    (label : Int) (admin_username : String) (now : String) :
    Except PyErr (FinalData × Option FinalData) :=
  match get_storage_key registry block_id with
  | .error e => .error e
  | .ok key =>
    let blocks := (dictGet d.labels key.1).getD []
    let blocks2 :=
      dictSet blocks key.2 { final_label := label, set_by := admin_username, set_at := now }
    let d2 : FinalData := { updated_at := now, labels := dictSet d.labels key.1 blocks2 }
    .ok (d2, some d2)

/-- The list comprehension `[lbl for lbl in labels if lbl is not None]`. -/
def validLabels (labels : List (Option Int)) : List Int :=
  labels.filterMap id

/-- Key list of `collections.Counter(valid)`: each distinct value once, in
first-occurrence order. -/
def counterKeys : List Int → List Int
  | [] => []
  | x :: xs => x :: (counterKeys xs).filter (fun y => decide (y ≠ x))

/-- The value `counter.most_common(1)[0][1]`: the largest occurrence count
over the distinct values of `valid` (`valid.count k` is `Counter(valid)[k]`). -/
def maxCount (valid : List Int) : Nat :=
  ((counterKeys valid).map (fun l => valid.count l)).foldl max 0

/-- The expression `sorted(lbl for lbl, cnt in counter.items() if cnt == max_count)`:
all labels sharing the highest vote count, in ascending order. -/
def leadersOf (valid : List Int) : List Int :=
  List.insertionSort (fun a b => a ≤ b)
    ((counterKeys valid).filter (fun l => decide (valid.count l = maxCount valid)))

/-- Embedding of `compute_consensus`: drop absent labels; with no valid votes
return `(None, False)`; otherwise flag disagreement when more than one
distinct value occurs, and return the first (numerically smallest) label of
the sorted leader list. `leaders[0]` is modelled by `head?`; the leader list
is provably nonempty whenever the valid list is. -/
def compute_consensus (labels : List (Option Int)) : Option Int × Bool :=
  let valid := validLabels labels
  match valid with
  | [] => (none, false)
  | _ :: _ =>
    ((leadersOf valid).head?, decide (1 < (counterKeys valid).length))

/-- A generic record value inside a per-user flattened annotation mapping, as
`build_consensus_table` consumes it: a Python dict from field names to ints.
The code only tests the record for truthiness (non-emptiness) and reads its
`"label"` field, treating malformed records leniently. -/
structure PyRec where
  fields : List (String × Int)
deriving DecidableEq

/-- One row of the admin consensus table. -/
structure ConsensusRow where
  block_id : String
  user_labels : List (String × Option Int)
  consensus : Option Int
  disagreement : Bool
deriving DecidableEq

/-- Embedding of `build_consensus_table`: for each block id in input order,
collect `{username: entry.get("label")}` over the users whose flattened
mapping has a truthy entry for the id, then attach the `compute_consensus`
of the collected label values. -/
def build_consensus_table (all_user_annotations : List (String × List (String × PyRec)))
    (block_ids : List String) : List ConsensusRow :=
  block_ids.map (fun block_id =>
    let user_labels : List (String × Option Int) :=
      all_user_annotations.filterMap (fun p =>
        match dictGet p.2 block_id with
        | some entry =>
          if entry.fields.isEmpty then none
          else some (p.1, dictGet entry.fields "label")
        | none => none)
    let cd := compute_consensus (user_labels.map Prod.snd)
    { block_id := block_id, user_labels := user_labels,
      consensus := cd.1, disagreement := cd.2 })

/-- Lexicographic code-point comparison of character lists; this is the order
Python's `sorted` uses on strings. -/
def charListLe : List Char → List Char → Bool
  | [], _ => true
  | _ :: _, [] => false
  | a :: as, b :: bs =>
    if a.toNat < b.toNat then true
    else if b.toNat < a.toNat then false
    else charListLe as bs

/-- The string order used by `sorted(usernames)`. -/
def strLe (a b : String) : Prop := charListLe a.data b.data = true

instance : DecidableRel strLe := fun _ _ => Bool.decEq _ _

/-- Rendering of one optional label into a CSV cell: `row["consensus"]` when
not `None`, else the empty string (and `csv.DictWriter` writes `None` as the
empty string for user cells). -/
def csvCell : Option Int → String
  | some i => toString i
  | none => ""

/-- Rendering of a Python bool by `csv.DictWriter` (via `str`). -/
def boolCell (b : Bool) : String := if b then "True" else "False"

/-- Embedding of `export_csv`: the written CSV as a list of rows of cells,
header first. The export timestamp is computed once per call
(`datetime.now(timezone.utc).isoformat()`) and passed here as `exported_at`. -/
def export_csv (consensus_rows : List ConsensusRow)
    (final_labels : List (String × FinalRec)) (usernames : List String)
    (exported_at : String) : List (List String) :=
  let sorted_users := List.insertionSort strLe usernames
  let fieldnames :=
    ["block_id", "consensus_label", "final_label", "has_disagreement"]
      ++ sorted_users.map (fun u => "user_" ++ u ++ "_label")
      ++ ["exported_at"]
  fieldnames ::
    consensus_rows.map (fun row =>
      [row.block_id,
       csvCell row.consensus,
       (match dictGet final_labels row.block_id with
        | some fl_entry => toString fl_entry.final_label
        | none => ""),
       boolCell row.disagreement]
        ++ sorted_users.map (fun u =>
            match dictGet row.user_labels u with
            | some lbl => csvCell lbl
            | none => "")
        ++ [exported_at])

/-- Contents of a file in the modelled filesystem: either a fully serialized
document or a partially written one (a temp file between `open` and a
completed flush-and-fsync). -/
inductive FileContent (α : Type) where
  | complete (doc : α)
  | halfWritten
deriving DecidableEq

/-- The modelled filesystem: a mapping from paths to file contents.
Directories are left implicit (`mkdir(parents=True, exist_ok=True)` cannot
make an existing write target disappear). -/
abbrev FS (α : Type) := List (String × FileContent α)

/-- Injected failure point inside `atomic_write_json`: the `open` of the temp
file, the `json.dump` serialization into it, the buffered write/flush, the
`os.fsync` of the temp file, or the `os.replace` rename. -/
inductive FailPoint where
  | openTmp
  | serializeDoc
  | writeTmp
  | fsyncTmp
  | renameTmp
deriving DecidableEq

/-- The `try` body of `atomic_write_json`: create and write the temp file,
fsync it, atomically rename it onto the target, then fsync the directory
(errors of the directory fsync are caught and ignored, so no failure point is
modelled for it). On failure the exception carries the filesystem state at
the point of the raise, so that the `except` handler can run against it. -/
def atomic_write_body {α : Type} (fs : FS α) (filepath tmp_path : String) (data : α)
    (failAt : Option FailPoint) : Except (PyErr × FS α) (FS α) :=
  if failAt = some .openTmp then .error (.ioError, fs)
  else
    let fs1 := dictSet fs tmp_path .halfWritten
    if failAt = some .serializeDoc then .error (.ioError, fs1)
    else if failAt = some .writeTmp then .error (.ioError, fs1)
    else
      let fs2 := dictSet fs1 tmp_path (.complete data)
      if failAt = some .fsyncTmp then .error (.ioError, fs2)
      else if failAt = some .renameTmp then .error (.ioError, fs2)
      else .ok (dictSet (dictRemove fs2 tmp_path) filepath (.complete data))

/-- Embedding of `atomic_write_json`: run the body; on any exception remove
the temp file if it exists (its own `OSError` would be swallowed) and
re-raise. Returns the outcome and the filesystem after the call. -/
def atomic_write_json {α : Type} (fs : FS α) (filepath tmp_path : String) (data : α)
    (failAt : Option FailPoint) : Except PyErr Unit × FS α :=
  match atomic_write_body fs filepath tmp_path data failAt with
  | .ok fs2 => (.ok (), fs2)
  | .error pr => (.error pr.1, dictRemove pr.2 tmp_path)

/-- What one iteration of the `read_json` retry loop observes at the path:
the file is absent, or it parses to a document, or reading/parsing raises
`OSError`/`JSONDecodeError`. -/
inductive ReadAttempt (α : Type) where
  | missing
  | value (doc : α)
  | failure
deriving DecidableEq

/-- Result of `read_json`: the `None` return for a missing file, a parsed
document, or the `RuntimeError` raised after exhausting the retries. -/
inductive ReadResult (α : Type) where
  | notFound
  | value (doc : α)
  | fatalError
deriving DecidableEq

/-- The retry loop of `read_json` (`for attempt in range(3)`).
`env attempt` is what the filesystem lets that iteration observe. The second
component collects the `time.sleep(0.05 * (attempt + 1))` backoff durations
in centiseconds. The fuel argument counts the remaining loop iterations and
starts at 3. -/
def read_json_go {α : Type} (env : Nat → ReadAttempt α) : Nat → Nat → ReadResult α × List Nat
  | _, 0 => (.fatalError, [])
  | attempt, fuel + 1 =>
    match env attempt with
    | .missing => (.notFound, [])
    | .value doc => (.value doc, [])
    | .failure =>
      if attempt < 2 then
        let r := read_json_go env (attempt + 1) fuel
        (r.1, 5 * (attempt + 1) :: r.2)
      else read_json_go env (attempt + 1) fuel

/-- Embedding of `read_json` over an observation environment. -/
def read_json {α : Type} (env : Nat → ReadAttempt α) : ReadResult α × List Nat :=
  read_json_go env 0 3

/-! ### Theorems: helper lemmas, claim theorems and witnesses -/

theorem dictGet_dictSet_self {α : Type} (m : List (String × α)) (k : String) (v : α) :
    dictGet (dictSet m k v) k = some v := by
  induction m with
  | nil => simp [dictGet, dictSet]
  | cons p rest ih =>
    by_cases h : p.1 = k
    · simp [dictGet, dictSet, h]
    · simp [dictGet, dictSet, h, ih]

theorem dictGet_dictSet_ne {α : Type} (m : List (String × α)) {k k' : String} (v : α)
    (hne : k' ≠ k) : dictGet (dictSet m k v) k' = dictGet m k' := by
  have h1 : ¬(k = k') := fun hh => hne hh.symm
  induction m with
  | nil => simp [dictGet, dictSet, h1]
  | cons p rest ih =>
    by_cases h : p.1 = k
    · rw [show dictSet (p :: rest) k v = (k, v) :: rest by simp [dictSet, h]]
      have h2 : ¬(p.1 = k') := fun hh => h1 (h ▸ hh)
      simp [dictGet, h1, h2]
    · rw [show dictSet (p :: rest) k v = p :: dictSet rest k v by simp [dictSet, h]]
      by_cases h' : p.1 = k'
      · simp [dictGet, h']
      · simp [dictGet, h', ih]

theorem mem_dictSet_elim {α : Type} {m : List (String × α)} {k : String} {v : α}
    {p : String × α} (hp : p ∈ dictSet m k v) : p = (k, v) ∨ p ∈ m := by
  induction m with
  | nil => simpa [dictSet] using hp
  | cons q rest ih =>
    by_cases h : q.1 = k
    · simp only [dictSet, h, if_pos] at hp
      rcases List.mem_cons.mp hp with h1 | h1
      · exact Or.inl h1
      · exact Or.inr (List.mem_cons_of_mem _ h1)
    · simp only [dictSet, h, if_neg, not_false_iff] at hp
      rcases List.mem_cons.mp hp with h1 | h1
      · exact Or.inr (h1 ▸ List.mem_cons_self _ _)
      · rcases ih h1 with h2 | h2
        · exact Or.inl h2
        · exact Or.inr (List.mem_cons_of_mem _ h2)

theorem dictSet_ne_nil {α : Type} (m : List (String × α)) (k : String) (v : α) :
    dictSet m k v ≠ [] := by
  cases m with
  | nil => simp [dictSet]
  | cons p rest =>
    by_cases h : p.1 = k <;> simp [dictSet, h]

theorem mem_keys_dictSet {α : Type} (m : List (String × α)) (k : String) (v : α)
    (x : String) :
    x ∈ (dictSet m k v).map Prod.fst ↔ x ∈ m.map Prod.fst ∨ x = k := by
  induction m with
  | nil => simp [dictSet]
  | cons p rest ih =>
    by_cases h : p.1 = k
    · subst h
      simp only [dictSet, if_pos]
      constructor
      · intro hx
        rcases List.mem_map.mp hx with ⟨q, hq, hq2⟩
        rcases List.mem_cons.mp hq with h1 | h1
        · exact Or.inr (by rw [← hq2, h1])
        · exact Or.inl (by
            simp only [List.map_cons, List.mem_cons]
            exact Or.inr (List.mem_map.mpr ⟨q, h1, hq2⟩))
      · intro hx
        rcases hx with hx | hx
        · simp only [List.map_cons, List.mem_cons] at hx
          rcases hx with hx | hx
          · simp [hx]
          · simp [List.mem_cons, hx]
        · simp [hx]
    · simp only [dictSet, if_neg h, List.map_cons, List.mem_cons, ih]
      tauto

theorem nodup_keys_dictSet {α : Type} {m : List (String × α)} (k : String) (v : α)
    (hn : (m.map Prod.fst).Nodup) : ((dictSet m k v).map Prod.fst).Nodup := by
  induction m with
  | nil => simp [dictSet]
  | cons p rest ih =>
    simp only [List.map_cons, List.nodup_cons] at hn
    by_cases h : p.1 = k
    · subst h
      simpa [dictSet, List.nodup_cons] using hn
    · simp only [dictSet, if_neg h, List.map_cons, List.nodup_cons]
      refine ⟨fun hc => ?_, ih hn.2⟩
      rcases (mem_keys_dictSet rest k v p.1).mp hc with h1 | h1
      · exact hn.1 h1
      · exact h h1

theorem dictGet_eq_none_iff {α : Type} (m : List (String × α)) (k : String) :
    dictGet m k = none ↔ k ∉ m.map Prod.fst := by
  induction m with
  | nil => simp [dictGet]
  | cons p rest ih =>
    by_cases h : p.1 = k
    · simp [dictGet, h]
    · simp only [dictGet, if_neg h, List.map_cons, List.mem_cons, ih]
      constructor
      · intro hnm hc
        rcases hc with hc | hc
        · exact h hc.symm
        · exact hnm hc
      · intro hc
        exact fun hm => hc (Or.inr hm)

theorem dictGet_dictRemove_self {α : Type} {m : List (String × α)} (k : String)
    (hn : (m.map Prod.fst).Nodup) : dictGet (dictRemove m k) k = none := by
  induction m with
  | nil => simp [dictGet, dictRemove]
  | cons p rest ih =>
    simp only [List.map_cons, List.nodup_cons] at hn
    by_cases h : p.1 = k
    · rw [show dictRemove (p :: rest) k = rest by simp [dictRemove, h]]
      exact (dictGet_eq_none_iff rest k).mpr (h ▸ hn.1)
    · rw [show dictRemove (p :: rest) k = p :: dictRemove rest k by simp [dictRemove, h]]
      simp only [dictGet, if_neg h]
      exact ih hn.2

theorem dictGet_dictRemove_ne {α : Type} (m : List (String × α)) {k k' : String}
    (hne : k' ≠ k) : dictGet (dictRemove m k) k' = dictGet m k' := by
  have h1 : ¬(k = k') := fun hh => hne hh.symm
  induction m with
  | nil => simp [dictRemove]
  | cons p rest ih =>
    by_cases h : p.1 = k
    · rw [show dictRemove (p :: rest) k = rest by simp [dictRemove, h]]
      have h2 : ¬(p.1 = k') := fun hh => h1 (h ▸ hh)
      simp [dictGet, h2]
    · rw [show dictRemove (p :: rest) k = p :: dictRemove rest k by simp [dictRemove, h]]
      by_cases h' : p.1 = k'
      · simp [dictGet, h']
      · simp [dictGet, h', ih]

theorem mem_dictRemove_subset {α : Type} {m : List (String × α)} {k : String}
    {p : String × α} (hp : p ∈ dictRemove m k) : p ∈ m := by
  induction m with
  | nil => simp [dictRemove] at hp
  | cons q rest ih =>
    by_cases h : q.1 = k
    · simp only [dictRemove, if_pos h] at hp
      exact List.mem_cons_of_mem _ hp
    · simp only [dictRemove, if_neg h] at hp
      rcases List.mem_cons.mp hp with h1 | h1
      · exact h1 ▸ List.mem_cons_self _ _
      · exact List.mem_cons_of_mem _ (ih h1)

theorem keys_dictRemove_sublist {α : Type} (m : List (String × α)) (k : String) :
    ((dictRemove m k).map Prod.fst).Sublist (m.map Prod.fst) := by
  induction m with
  | nil => simp [dictRemove]
  | cons p rest ih =>
    by_cases h : p.1 = k
    · simp only [dictRemove, if_pos h, List.map_cons]
      exact (List.sublist_cons_self _ _)
    · simp only [dictRemove, if_neg h, List.map_cons]
      exact ih.cons₂ p.1

theorem nodup_keys_dictRemove {α : Type} {m : List (String × α)} (k : String)
    (hn : (m.map Prod.fst).Nodup) : ((dictRemove m k).map Prod.fst).Nodup :=
  hn.sublist (keys_dictRemove_sublist m k)

theorem dictGet_mem {α : Type} {m : List (String × α)} {k : String} {v : α}
    (h : dictGet m k = some v) : (k, v) ∈ m := by
  induction m with
  | nil => simp [dictGet] at h
  | cons p rest ih =>
    by_cases hk : p.1 = k
    · simp only [dictGet, if_pos hk] at h
      have hp : (k, v) = p := by
        cases p with
        | mk a b =>
          simp only at hk h
          injection h with h2
          rw [hk, h2]
      rw [hp]
      exact List.mem_cons_self _ _
    · simp only [dictGet, if_neg hk] at h
      exact List.mem_cons_of_mem _ (ih h)

theorem dictGet_of_mem_nodup {α : Type} {m : List (String × α)} {k : String} {v : α}
    (hm : (k, v) ∈ m) (hn : (m.map Prod.fst).Nodup) : dictGet m k = some v := by
  induction m with
  | nil => simp at hm
  | cons p rest ih =>
    simp only [List.map_cons, List.nodup_cons] at hn
    rcases List.mem_cons.mp hm with h1 | h1
    · simp [dictGet, ← h1]
    · have hk : p.1 ≠ k := by
        intro hk
        exact hn.1 (hk ▸ List.mem_map.mpr ⟨(k, v), h1, rfl⟩)
      simp only [dictGet, if_neg hk]
      exact ih h1 hn.2

theorem countP_dictSet_nodup {α : Type} {m : List (String × α)} (k : String) (v : α)
    (hn : (m.map Prod.fst).Nodup) :
    (dictSet m k v).countP (fun q => decide (q.1 = k)) = 1 := by
  induction m with
  | nil => simp [dictSet]
  | cons p rest ih =>
    simp only [List.map_cons, List.nodup_cons] at hn
    by_cases h : p.1 = k
    · subst h
      rw [show dictSet (p :: rest) p.1 v = (p.1, v) :: rest by simp [dictSet]]
      rw [List.countP_cons]
      have hz : rest.countP (fun q => decide (q.1 = p.1)) = 0 := by
        rw [List.countP_eq_zero]
        intro q hq
        simp only [decide_eq_true_eq]
        intro hc
        exact hn.1 (hc ▸ List.mem_map.mpr ⟨q, hq, rfl⟩)
      simp [hz]
    · rw [show dictSet (p :: rest) k v = p :: dictSet rest k v by simp [dictSet, h]]
      rw [List.countP_cons]
      simp [h, ih hn.2]

theorem mem_setAdd (s : List String) (x y : String) :
    y ∈ setAdd s x ↔ y ∈ s ∨ y = x := by
  unfold setAdd
  by_cases h : x ∈ s
  · simp only [if_pos h]
    constructor
    · exact Or.inl
    · rintro (hy | rfl)
      · exact hy
      · exact h
  · simp [if_neg h]

theorem rsplitLast_eq_none_iff (sep : Char) (l : List Char) :
    rsplitLast sep l = none ↔ sep ∉ l := by
  induction l with
  | nil => simp [rsplitLast]
  | cons c rest ih =>
    simp only [rsplitLast, List.mem_cons]
    cases hr : rsplitLast sep rest with
    | some pr =>
      simp only []
      constructor
      · intro h
        exact absurd h (by simp)
      · intro h
        have hmem : sep ∈ rest := by
          by_contra hc
          rw [ih.mpr hc] at hr
          cases hr
        exact absurd (Or.inr hmem) h
    | none =>
      by_cases hc : c = sep
      · simp only [if_pos hc]
        constructor
        · intro h
          exact absurd h (by simp)
        · intro h
          exact absurd (Or.inl hc.symm) h
      · simp only [if_neg hc]
        constructor
        · intro _ h
          rcases h with h | h
          · exact hc h.symm
          · exact (ih.mp hr) h
        · intro _
          trivial

theorem rsplitLast_append {sep : Char} {b : List Char} (hb : sep ∉ b) (a : List Char) :
    rsplitLast sep (a ++ sep :: b) = some (a, b) := by
  induction a with
  | nil =>
    simp only [List.nil_append, rsplitLast]
    rw [(rsplitLast_eq_none_iff sep b).mpr hb]
    simp
  | cons c a' ih =>
    simp only [List.cons_append, rsplitLast, List.append_eq, ih]

theorem rsplitLast_some_snd_not_mem {sep : Char} {l : List Char}
    {pr : List Char × List Char} (h : rsplitLast sep l = some pr) : sep ∉ pr.2 := by
  induction l generalizing pr with
  | nil => simp [rsplitLast] at h
  | cons c rest ih =>
    simp only [rsplitLast] at h
    cases hr : rsplitLast sep rest with
    | some pr' =>
      rw [hr] at h
      injection h with h
      have h2 := ih hr
      rw [← h]
      exact h2
    | none =>
      rw [hr] at h
      by_cases hc : c = sep
      · simp only [if_pos hc] at h
        injection h with h
        have h2 := (rsplitLast_eq_none_iff sep rest).mp hr
        rw [← h]
        exact h2
      · simp [if_neg hc] at h

theorem data_flattenId (parent_path block_name : String) (h : parent_path ≠ "") :
    (flattenId parent_path block_name).data =
      parent_path.data ++ ('/' : Char) :: block_name.data := by
  simp only [flattenId, if_neg h, String.data_append]
  rw [List.append_assoc]
  rfl

theorem string_mk_data (s : String) : String.mk s.data = s := rfl

theorem storage_key_flattenId {block_name : String} (parent_path : String)
    (hb : ('/' : Char) ∉ block_name.data) :
    get_storage_key_fallback (flattenId parent_path block_name) = (parent_path, block_name) := by
  by_cases h : parent_path = ""
  · subst h
    have hf : flattenId "" block_name = block_name := by simp [flattenId]
    rw [hf]
    unfold get_storage_key_fallback
    rw [(rsplitLast_eq_none_iff _ _).mpr hb]
  · have hd := data_flattenId parent_path block_name h
    unfold get_storage_key_fallback
    rw [hd, rsplitLast_append hb]

theorem fallback_snd_slashfree (block_id : String) :
    ('/' : Char) ∉ (get_storage_key_fallback block_id).2.data := by
  unfold get_storage_key_fallback
  cases hr : rsplitLast ('/' : Char) block_id.data with
  | some pr =>
    exact rsplitLast_some_snd_not_mem hr
  | none =>
    exact (rsplitLast_eq_none_iff _ _).mp hr

theorem flattenId_fallback_eq {pp1 pp2 bn1 bn2 : String}
    (h1 : ('/' : Char) ∉ bn1.data) (h2 : ('/' : Char) ∉ bn2.data)
    (h : flattenId pp1 bn1 = flattenId pp2 bn2) : pp1 = pp2 ∧ bn1 = bn2 := by
  have e1 := storage_key_flattenId pp1 h1
  have e2 := storage_key_flattenId pp2 h2
  rw [h, e2] at e1
  exact ⟨(Prod.mk.injEq _ _ _ _ |>.mp e1).1.symm, (Prod.mk.injEq _ _ _ _ |>.mp e1).2.symm⟩

theorem mem_counterKeys (a : Int) (l : List Int) : a ∈ counterKeys l ↔ a ∈ l := by
  induction l with
  | nil => simp [counterKeys]
  | cons x xs ih =>
    simp only [counterKeys, List.mem_cons, List.mem_filter, ih, decide_eq_true_eq]
    constructor
    · rintro (h | ⟨h1, _⟩)
      · exact Or.inl h
      · exact Or.inr h1
    · rintro (h | h)
      · exact Or.inl h
      · by_cases hx : a = x
        · exact Or.inl hx
        · exact Or.inr ⟨h, hx⟩

theorem nodup_counterKeys (l : List Int) : (counterKeys l).Nodup := by
  induction l with
  | nil => simp [counterKeys]
  | cons x xs ih =>
    simp only [counterKeys, List.nodup_cons]
    constructor
    · intro hc
      rcases List.mem_filter.mp hc with ⟨_, h2⟩
      simp at h2
    · exact ih.filter _

theorem counterKeys_length_one_lt (l : List Int) :
    1 < (counterKeys l).length ↔ ∃ a ∈ l, ∃ b ∈ l, a ≠ b := by
  constructor
  · intro h
    match hk : counterKeys l with
    | [] => rw [hk] at h; simp at h
    | [a] => rw [hk] at h; simp at h
    | a :: b :: rest =>
      have hnd := nodup_counterKeys l
      rw [hk] at hnd
      have hab : a ≠ b := by
        intro he
        rw [List.nodup_cons] at hnd
        exact hnd.1 (he ▸ List.mem_cons_self _ _)
      have ha : a ∈ l := (mem_counterKeys a l).mp (hk ▸ List.mem_cons_self _ _)
      have hb : b ∈ l :=
        (mem_counterKeys b l).mp (hk ▸ List.mem_cons_of_mem _ (List.mem_cons_self _ _))
      exact ⟨a, ha, b, hb, hab⟩
  · rintro ⟨a, ha, b, hb, hab⟩
    by_contra h
    push_neg at h
    have ha2 : a ∈ counterKeys l := (mem_counterKeys a l).mpr ha
    have hb2 : b ∈ counterKeys l := (mem_counterKeys b l).mpr hb
    match hk : counterKeys l with
    | [] => rw [hk] at ha2; simp at ha2
    | [c] =>
      rw [hk] at ha2 hb2
      simp only [List.mem_singleton] at ha2 hb2
      exact hab (ha2.trans hb2.symm)
    | c :: d :: rest =>
      rw [hk] at h
      simp at h

theorem foldl_max_init_le (l : List Nat) (a : Nat) : a ≤ l.foldl max a := by
  induction l generalizing a with
  | nil => simp
  | cons x xs ih => exact le_trans (le_max_left a x) (ih (max a x))

theorem le_foldl_max {l : List Nat} {x : Nat} (h : x ∈ l) (a : Nat) : x ≤ l.foldl max a := by
  induction l generalizing a with
  | nil => simp at h
  | cons y ys ih =>
    rcases List.mem_cons.mp h with h1 | h1
    · subst h1
      exact le_trans (le_max_right a x) (foldl_max_init_le ys (max a x))
    · exact ih h1 (max a y)

theorem foldl_max_mem (l : List Nat) (a : Nat) : l.foldl max a = a ∨ l.foldl max a ∈ l := by
  induction l generalizing a with
  | nil => simp
  | cons x xs ih =>
    rcases ih (max a x) with h | h
    · rcases max_choice a x with h2 | h2
      · exact Or.inl (by rw [List.foldl_cons, h, h2])
      · exact Or.inr (by rw [List.foldl_cons, h, h2]; exact List.mem_cons_self _ _)
    · exact Or.inr (List.mem_cons_of_mem _ h)

theorem charListLe_total : ∀ (a b : List Char), charListLe a b = true ∨ charListLe b a = true
  | [], _ => Or.inl rfl
  | _ :: _, [] => Or.inr rfl
  | a :: as, b :: bs => by
    by_cases h1 : a.toNat < b.toNat
    · left
      simp [charListLe, h1]
    · by_cases h2 : b.toNat < a.toNat
      · right
        simp [charListLe, h2]
      · rcases charListLe_total as bs with h | h
        · left
          simp [charListLe, h1, h2, h]
        · right
          simp [charListLe, h1, h2, h]

theorem charListLe_trans : ∀ {a b c : List Char},
    charListLe a b = true → charListLe b c = true → charListLe a c = true
  | [], _, _, _, _ => rfl
  | _ :: _, [], _, h1, _ => by simp [charListLe] at h1
  | _ :: _, _ :: _, [], _, h2 => by simp [charListLe] at h2
  | a :: as, b :: bs, c :: cs, h1, h2 => by
    simp only [charListLe] at h1 h2 ⊢
    by_cases hab : a.toNat < b.toNat
    · by_cases hbc : b.toNat < c.toNat
      · simp [show a.toNat < c.toNat from lt_trans hab hbc]
      · have hcb : ¬c.toNat < b.toNat := by
          intro hcb
          simp [hbc, hcb] at h2
        have hac : a.toNat < c.toNat := by omega
        simp [hac]
    · have hba : ¬b.toNat < a.toNat := by
        intro hba
        simp [hab, hba] at h1
      have h1' : charListLe as bs = true := by simpa [hab, hba] using h1
      by_cases hbc : b.toNat < c.toNat
      · have hac : a.toNat < c.toNat := by omega
        simp [hac]
      · have hcb : ¬c.toNat < b.toNat := by
          intro hcb
          simp [hbc, hcb] at h2
        have h2' : charListLe bs cs = true := by simpa [hbc, hcb] using h2
        have hac : ¬a.toNat < c.toNat := by omega
        have hca : ¬c.toNat < a.toNat := by omega
        simp [hac, hca, charListLe_trans h1' h2']

theorem charListLe_antisymm : ∀ {a b : List Char},
    charListLe a b = true → charListLe b a = true → a = b
  | [], [], _, _ => rfl
  | [], _ :: _, _, h2 => by simp [charListLe] at h2
  | _ :: _, [], h1, _ => by simp [charListLe] at h1
  | a :: as, b :: bs, h1, h2 => by
    simp only [charListLe] at h1 h2
    by_cases hab : a.toNat < b.toNat
    · exfalso
      have hba : ¬b.toNat < a.toNat := by omega
      simp [hab, hba] at h2
    · by_cases hba : b.toNat < a.toNat
      · exfalso
        simp [hab, hba] at h1
      · have h1' : charListLe as bs = true := by simpa [hab, hba] using h1
        have h2' : charListLe bs as = true := by simpa [hab, hba] using h2
        have hn : a.toNat = b.toNat := by omega
        have hchar : a = b := Char.ext (UInt32.toNat.inj hn)
        rw [hchar, charListLe_antisymm h1' h2']

instance : IsTotal String strLe := ⟨fun a b => charListLe_total a.data b.data⟩

instance : IsTrans String strLe := ⟨fun _ _ _ => charListLe_trans⟩

instance : IsAntisymm String strLe :=
  ⟨fun a b h1 h2 => by
    have hd := charListLe_antisymm h1 h2
    cases a
    cases b
    simp only at hd
    rw [hd]⟩

theorem mem_fold_setAdd_inner (pp : String) (blocks : List (String × AnnRec))
    (acc : List String) (x : String) :
    x ∈ blocks.foldl (fun result2 q => setAdd result2 (flattenId pp q.1)) acc ↔
      x ∈ acc ∨ ∃ q ∈ blocks, x = flattenId pp q.1 := by
  induction blocks generalizing acc with
  | nil => simp
  | cons q rest ih =>
    rw [List.foldl_cons, ih, mem_setAdd]
    constructor
    · rintro ((h | h) | ⟨q', hq', he⟩)
      · exact Or.inl h
      · exact Or.inr ⟨q, List.mem_cons_self _ _, h⟩
      · exact Or.inr ⟨q', List.mem_cons_of_mem _ hq', he⟩
    · rintro (h | ⟨q', hq', he⟩)
      · exact Or.inl (Or.inl h)
      · rcases List.mem_cons.mp hq' with h1 | h1
        · exact Or.inl (Or.inr (h1 ▸ he))
        · exact Or.inr ⟨q', h1, he⟩

theorem mem_fold_setAdd_outer (l : List (String × List (String × AnnRec)))
    (acc : List String) (x : String) :
    x ∈ l.foldl
        (fun result p => p.2.foldl (fun result2 q => setAdd result2 (flattenId p.1 q.1)) result)
        acc ↔
      x ∈ acc ∨ ∃ p ∈ l, ∃ q ∈ p.2, x = flattenId p.1 q.1 := by
  induction l generalizing acc with
  | nil => simp
  | cons p rest ih =>
    rw [List.foldl_cons, ih, mem_fold_setAdd_inner]
    constructor
    · rintro ((h | h) | ⟨p', hp', hq⟩)
      · exact Or.inl h
      · exact Or.inr ⟨p, List.mem_cons_self _ _, h⟩
      · exact Or.inr ⟨p', List.mem_cons_of_mem _ hp', hq⟩
    · rintro (h | ⟨p', hp', hq⟩)
      · exact Or.inl (Or.inl h)
      · rcases List.mem_cons.mp hp' with h1 | h1
        · exact Or.inl (Or.inr (h1 ▸ hq))
        · exact Or.inr ⟨p', h1, hq⟩

theorem mem_annotated_block_ids (d : StoreData) (x : String) :
    x ∈ annotated_block_ids d ↔
      ∃ p ∈ d.annotations, ∃ q ∈ p.2, x = flattenId p.1 q.1 := by
  unfold annotated_block_ids
  rw [mem_fold_setAdd_outer]
  simp

theorem mem_keys_fold_dictSet_inner (pp : String) (blocks : List (String × AnnRec))
    (acc : List (String × AnnRec)) (x : String) :
    x ∈ (blocks.foldl (fun result2 q => dictSet result2 (flattenId pp q.1) q.2) acc).map
        Prod.fst ↔
      x ∈ acc.map Prod.fst ∨ ∃ q ∈ blocks, x = flattenId pp q.1 := by
  induction blocks generalizing acc with
  | nil => simp
  | cons q rest ih =>
    rw [List.foldl_cons, ih, mem_keys_dictSet]
    constructor
    · rintro ((h | h) | ⟨q', hq', he⟩)
      · exact Or.inl h
      · exact Or.inr ⟨q, List.mem_cons_self _ _, h⟩
      · exact Or.inr ⟨q', List.mem_cons_of_mem _ hq', he⟩
    · rintro (h | ⟨q', hq', he⟩)
      · exact Or.inl (Or.inl h)
      · rcases List.mem_cons.mp hq' with h1 | h1
        · exact Or.inl (Or.inr (h1 ▸ he))
        · exact Or.inr ⟨q', h1, he⟩

theorem mem_keys_fold_dictSet_outer (l : List (String × List (String × AnnRec)))
    (acc : List (String × AnnRec)) (x : String) :
    x ∈ (l.foldl
          (fun result p =>
            p.2.foldl (fun result2 q => dictSet result2 (flattenId p.1 q.1) q.2) result)
          acc).map Prod.fst ↔
      x ∈ acc.map Prod.fst ∨ ∃ p ∈ l, ∃ q ∈ p.2, x = flattenId p.1 q.1 := by
  induction l generalizing acc with
  | nil => simp
  | cons p rest ih =>
    rw [List.foldl_cons, ih, mem_keys_fold_dictSet_inner]
    constructor
    · rintro ((h | h) | ⟨p', hp', hq⟩)
      · exact Or.inl h
      · exact Or.inr ⟨p, List.mem_cons_self _ _, h⟩
      · exact Or.inr ⟨p', List.mem_cons_of_mem _ hp', hq⟩
    · rintro (h | ⟨p', hp', hq⟩)
      · exact Or.inl (Or.inl h)
      · rcases List.mem_cons.mp hp' with h1 | h1
        · exact Or.inl (Or.inr (h1 ▸ hq))
        · exact Or.inr ⟨p', h1, hq⟩

theorem mem_keys_all_annotations (d : StoreData) (x : String) :
    x ∈ (all_annotations d).map Prod.fst ↔
      ∃ p ∈ d.annotations, ∃ q ∈ p.2, x = flattenId p.1 q.1 := by
  unfold all_annotations
  rw [mem_keys_fold_dictSet_outer]
  simp

theorem mem_fold_dictSet_inner_elim {pp : String} {blocks : List (String × AnnRec)}
    {acc : List (String × AnnRec)} {pr : String × AnnRec}
    (h : pr ∈ blocks.foldl (fun result2 q => dictSet result2 (flattenId pp q.1) q.2) acc) :
    pr ∈ acc ∨ ∃ q ∈ blocks, pr = (flattenId pp q.1, q.2) := by
  induction blocks generalizing acc with
  | nil => exact Or.inl h
  | cons q rest ih =>
    rw [List.foldl_cons] at h
    rcases ih h with h1 | ⟨q', hq', he⟩
    · rcases mem_dictSet_elim h1 with h2 | h2
      · exact Or.inr ⟨q, List.mem_cons_self _ _, h2⟩
      · exact Or.inl h2
    · exact Or.inr ⟨q', List.mem_cons_of_mem _ hq', he⟩

theorem mem_fold_dictSet_outer_elim {l : List (String × List (String × AnnRec))}
    {acc : List (String × AnnRec)} {pr : String × AnnRec}
    (h : pr ∈ l.foldl
        (fun result p =>
          p.2.foldl (fun result2 q => dictSet result2 (flattenId p.1 q.1) q.2) result)
        acc) :
    pr ∈ acc ∨ ∃ p ∈ l, ∃ q ∈ p.2, pr = (flattenId p.1 q.1, q.2) := by
  induction l generalizing acc with
  | nil => exact Or.inl h
  | cons p rest ih =>
    rw [List.foldl_cons] at h
    rcases ih h with h1 | ⟨p', hp', hq⟩
    · rcases mem_fold_dictSet_inner_elim h1 with h2 | ⟨q', hq', he⟩
      · exact Or.inl h2
      · exact Or.inr ⟨p, List.mem_cons_self _ _, q', hq', he⟩
    · exact Or.inr ⟨p', List.mem_cons_of_mem _ hp', hq⟩

theorem mem_all_annotations_elim {d : StoreData} {pr : String × AnnRec}
    (h : pr ∈ all_annotations d) :
    ∃ p ∈ d.annotations, ∃ q ∈ p.2, pr = (flattenId p.1 q.1, q.2) := by
  unfold all_annotations at h
  rcases mem_fold_dictSet_outer_elim h with h1 | h1
  · simp at h1
  · exact h1

theorem get_label_no_registry (d : StoreData) (block_id : String) :
    get_label d none block_id = .ok ((lookup_record d block_id).map AnnRec.label) := rfl

theorem WFStore_set {d : StoreData} (pp bn : String) (l : Int) (t : String)
    (hWF : WFStore d) (hbn : ('/' : Char) ∉ bn.data) :
    WFStore (set_label_key d pp bn l t) := by
  obtain ⟨hOut, hIn, hSl⟩ := hWF
  have hblocks : ((dictGet d.annotations pp).getD []).map Prod.fst |>.Nodup := by
    cases hg : dictGet d.annotations pp with
    | none => simp
    | some bl => exact hIn _ (dictGet_mem hg)
  have hblocksSl : ∀ q ∈ (dictGet d.annotations pp).getD [], ('/' : Char) ∉ q.1.data := by
    cases hg : dictGet d.annotations pp with
    | none => simp
    | some bl =>
      intro q hq
      exact hSl _ (dictGet_mem hg) q hq
  refine ⟨nodup_keys_dictSet pp _ hOut, ?_, ?_⟩
  · intro p hp
    rcases mem_dictSet_elim hp with h1 | h1
    · rw [h1]
      exact nodup_keys_dictSet bn _ hblocks
    · exact hIn p h1
  · intro p hp q hq
    rcases mem_dictSet_elim hp with h1 | h1
    · rw [h1] at hq
      rcases mem_dictSet_elim hq with h2 | h2
      · rw [h2]
        exact hbn
      · exact hblocksSl q h2
    · exact hSl p h1 q hq

theorem clear_label_key_miss_outer {d : StoreData} {pp : String} (bn t : String)
    (h : dictGet d.annotations pp = none) : clear_label_key d pp bn t = (d, false) := by
  unfold clear_label_key
  rw [h]

theorem clear_label_key_eq_inner {d : StoreData} {pp : String}
    {blocks : List (String × AnnRec)} (bn t : String)
    (h1 : dictGet d.annotations pp = some blocks) :
    clear_label_key d pp bn t = clear_label_inner d pp blocks bn t := by
  unfold clear_label_key
  rw [h1]

theorem clear_label_key_miss_inner {d : StoreData} {pp bn : String} (t : String)
    {blocks : List (String × AnnRec)} (h1 : dictGet d.annotations pp = some blocks)
    (h2 : dictGet blocks bn = none) : clear_label_key d pp bn t = (d, false) := by
  rw [clear_label_key_eq_inner bn t h1]
  unfold clear_label_inner
  rw [h2]

theorem clear_label_key_hit {d : StoreData} {pp bn : String} (t : String)
    {blocks : List (String × AnnRec)} {rec0 : AnnRec}
    (h1 : dictGet d.annotations pp = some blocks) (h2 : dictGet blocks bn = some rec0) :
    clear_label_key d pp bn t =
      ({ d with
          annotations :=
            if (dictRemove blocks bn).isEmpty then dictRemove d.annotations pp
            else dictSet d.annotations pp (dictRemove blocks bn),
          updated_at := t }, true) := by
  rw [clear_label_key_eq_inner bn t h1]
  unfold clear_label_inner
  rw [h2]

theorem WFStore_clear {d : StoreData} (pp bn : String) (t : String) (hWF : WFStore d) :
    WFStore (clear_label_key d pp bn t).1 := by
  obtain ⟨hOut, hIn, hSl⟩ := hWF
  cases hg : dictGet d.annotations pp with
  | none =>
    rw [clear_label_key_miss_outer bn t hg]
    exact ⟨hOut, hIn, hSl⟩
  | some blocks =>
    cases hg2 : dictGet blocks bn with
    | none =>
      rw [clear_label_key_miss_inner t hg hg2]
      exact ⟨hOut, hIn, hSl⟩
    | some rec0 =>
      rw [clear_label_key_hit t hg hg2]
      by_cases he : (dictRemove blocks bn).isEmpty
      · simp only [if_pos he]
        refine ⟨nodup_keys_dictRemove pp hOut, ?_, ?_⟩
        · intro p hp
          exact hIn p (mem_dictRemove_subset hp)
        · intro p hp
          exact hSl p (mem_dictRemove_subset hp)
      · simp only [if_neg he]
        have hbl : (pp, blocks) ∈ d.annotations := dictGet_mem hg
        refine ⟨nodup_keys_dictSet pp _ hOut, ?_, ?_⟩
        · intro p hp
          rcases mem_dictSet_elim hp with h1 | h1
          · rw [h1]
            exact (hIn _ hbl).sublist (keys_dictRemove_sublist blocks bn)
          · exact hIn p h1
        · intro p hp q hq
          rcases mem_dictSet_elim hp with h1 | h1
          · rw [h1] at hq
            exact hSl _ hbl q (mem_dictRemove_subset hq)
          · exact hSl p h1 q hq

theorem noEmptyInner_set {d : StoreData} (pp bn : String) (l : Int) (t : String)
    (hNE : NoEmptyInner d) : NoEmptyInner (set_label_key d pp bn l t) := by
  intro p hp
  rcases mem_dictSet_elim hp with h1 | h1
  · rw [h1]
    exact dictSet_ne_nil _ _ _
  · exact hNE p h1

theorem noEmptyInner_clear {d : StoreData} (pp bn : String) (t : String)
    (hNE : NoEmptyInner d) : NoEmptyInner (clear_label_key d pp bn t).1 := by
  cases hg : dictGet d.annotations pp with
  | none =>
    rw [clear_label_key_miss_outer bn t hg]
    exact hNE
  | some blocks =>
    cases hg2 : dictGet blocks bn with
    | none =>
      rw [clear_label_key_miss_inner t hg hg2]
      exact hNE
    | some rec0 =>
      rw [clear_label_key_hit t hg hg2]
      by_cases he : (dictRemove blocks bn).isEmpty
      · simp only [if_pos he]
        intro p hp
        exact hNE p (mem_dictRemove_subset hp)
      · simp only [if_neg he]
        intro p hp
        rcases mem_dictSet_elim hp with h1 | h1
        · rw [h1]
          simpa [List.isEmpty_iff] using he
        · exact hNE p h1

theorem compute_consensus_nil {labels : List (Option Int)} (h : validLabels labels = []) :
    compute_consensus labels = (none, false) := by
  unfold compute_consensus
  rw [h]

theorem compute_consensus_ne_nil {labels : List (Option Int)} (h : validLabels labels ≠ []) :
    compute_consensus labels =
      ((leadersOf (validLabels labels)).head?,
        decide (1 < (counterKeys (validLabels labels)).length)) := by
  unfold compute_consensus
  cases hv : validLabels labels with
  | nil => exact absurd hv h
  | cons x xs => rfl

theorem count_le_maxCount {valid : List Int} {l : Int} (h : l ∈ valid) :
    valid.count l ≤ maxCount valid := by
  unfold maxCount
  have hmem : valid.count l ∈ (counterKeys valid).map (fun y => valid.count y) :=
    List.mem_map.mpr ⟨l, (mem_counterKeys l valid).mpr h, rfl⟩
  exact le_foldl_max hmem 0

theorem maxCount_attained {valid : List Int} (h : valid ≠ []) :
    ∃ k ∈ counterKeys valid, valid.count k = maxCount valid := by
  rcases foldl_max_mem ((counterKeys valid).map (fun l => valid.count l)) 0 with h0 | hm
  · exfalso
    match valid, h with
    | x :: xs, _ =>
      have hx : x ∈ counterKeys (x :: xs) :=
        (mem_counterKeys x (x :: xs)).mpr (List.mem_cons_self _ _)
      have h1 : 0 < (x :: xs).count x := List.count_pos_iff.mpr (List.mem_cons_self _ _)
      have h2 : (x :: xs).count x ≤ maxCount (x :: xs) := count_le_maxCount (List.mem_cons_self _ _)
      rw [maxCount] at h2
      omega
  · rcases List.mem_map.mp hm with ⟨k, hk, he⟩
    exact ⟨k, hk, he⟩

theorem mem_leadersOf {valid : List Int} (a : Int) :
    a ∈ leadersOf valid ↔ a ∈ counterKeys valid ∧ valid.count a = maxCount valid := by
  unfold leadersOf
  rw [(List.perm_insertionSort _ _).mem_iff, List.mem_filter]
  simp

theorem leadersOf_ne_nil {valid : List Int} (h : valid ≠ []) : leadersOf valid ≠ [] := by
  rcases maxCount_attained h with ⟨k, hk, he⟩
  intro hc
  have : k ∈ leadersOf valid := (mem_leadersOf k).mpr ⟨hk, he⟩
  rw [hc] at this
  simp at this

theorem leadersOf_sorted (valid : List Int) :
    List.Sorted (fun a b : Int => a ≤ b) (leadersOf valid) :=
  List.sorted_insertionSort _ _

theorem counterKeys_perm {v1 v2 : List Int} (h : List.Perm v1 v2) :
    List.Perm (counterKeys v1) (counterKeys v2) := by
  rw [List.perm_ext_iff_of_nodup (nodup_counterKeys v1) (nodup_counterKeys v2)]
  intro a
  rw [mem_counterKeys, mem_counterKeys]
  exact h.mem_iff

theorem maxCount_le_of_perm {v1 v2 : List Int} (h : List.Perm v1 v2) :
    maxCount v1 ≤ maxCount v2 := by
  rcases foldl_max_mem ((counterKeys v1).map (fun l => v1.count l)) 0 with h0 | hm
  · rw [maxCount, h0]
    exact Nat.zero_le _
  · rcases List.mem_map.mp hm with ⟨k, hk, he⟩
    have hk2 : k ∈ v2 := h.mem_iff.mp ((mem_counterKeys k v1).mp hk)
    have hcnt : v1.count k = v2.count k := h.count_eq k
    calc maxCount v1 = v1.count k := by rw [maxCount, ← he]
    _ = v2.count k := hcnt
    _ ≤ maxCount v2 := count_le_maxCount hk2

theorem maxCount_perm {v1 v2 : List Int} (h : List.Perm v1 v2) : maxCount v1 = maxCount v2 :=
  le_antisymm (maxCount_le_of_perm h) (maxCount_le_of_perm h.symm)

theorem leadersOf_perm_eq {v1 v2 : List Int} (h : List.Perm v1 v2) :
    leadersOf v1 = leadersOf v2 := by
  have hfil : List.Perm
      ((counterKeys v1).filter (fun l => decide (v1.count l = maxCount v1)))
      ((counterKeys v2).filter (fun l => decide (v2.count l = maxCount v2))) := by
    have h1 : List.Perm
        ((counterKeys v1).filter (fun l => decide (v1.count l = maxCount v1)))
        ((counterKeys v2).filter (fun l => decide (v1.count l = maxCount v1))) :=
      (counterKeys_perm h).filter _
    have h2 : (counterKeys v2).filter (fun l => decide (v1.count l = maxCount v1)) =
        (counterKeys v2).filter (fun l => decide (v2.count l = maxCount v2)) := by
      apply List.filter_congr
      intro x _
      rw [h.count_eq x, maxCount_perm h]
    rw [← h2]
    exact h1
  have hp : List.Perm (leadersOf v1) (leadersOf v2) := by
    unfold leadersOf
    exact ((List.perm_insertionSort _ _).trans hfil).trans (List.perm_insertionSort _ _).symm
  exact List.eq_of_perm_of_sorted hp (leadersOf_sorted v1) (leadersOf_sorted v2)

theorem validLabels_perm {l1 l2 : List (Option Int)} (h : List.Perm l1 l2) :
    List.Perm (validLabels l1) (validLabels l2) := h.filterMap id

theorem compute_consensus_perm {l1 l2 : List (Option Int)} (h : List.Perm l1 l2) :
    compute_consensus l1 = compute_consensus l2 := by
  have hv := validLabels_perm h
  by_cases h1 : validLabels l1 = []
  · have h2 : validLabels l2 = [] := by
      rw [h1] at hv
      exact hv.nil_eq.symm
    rw [compute_consensus_nil h1, compute_consensus_nil h2]
  · have h2 : validLabels l2 ≠ [] := by
      intro hc
      rw [hc] at hv
      exact h1 hv.symm.nil_eq.symm
    rw [compute_consensus_ne_nil h1, compute_consensus_ne_nil h2,
      leadersOf_perm_eq hv, (counterKeys_perm hv).length_eq]

/-- C10: for every store state, `annotated_block_ids()` returns exactly the
key set of the mapping returned by `all_annotations()` — the two flattening
operations agree on which block ids carry an annotation. -/
theorem c10_annotated_ids_eq_annotation_keys :
    ∀ (d : StoreData) (bid : String),
      bid ∈ annotated_block_ids d ↔ bid ∈ (all_annotations d).map Prod.fst := by
  intro d bid
  rw [mem_annotated_block_ids, mem_keys_all_annotations]

/-- C1: with no registry, `_get_storage_key` splits the `block_id` at its
last `/` (and yields `("", block_id)` when there is no separator). With a
registry configured, however, the operation does not succeed: the code calls
`BlockRegistry.get_absolute_parent_path`, a method the registry class does
not define, so every storage-key resolution — and with it `get_label` and
`set_label` — raises `AttributeError` instead of returning the
registry-resolved path. This contradicts the code's own docstring and the
specified invariant, so the registry half of the claim fails on the code. -/
theorem c1_get_storage_key_spec :
    (∀ parent block_name : String, ('/' : Char) ∉ block_name.data →
      get_storage_key none (parent ++ "/" ++ block_name) = .ok (parent, block_name)) ∧
    (∀ block_id : String, ('/' : Char) ∉ block_id.data →
      get_storage_key none block_id = .ok ("", block_id)) ∧
    get_storage_key (some { data_root := "/data", blocks := [] }) "block_0001" =
      .error .attributeError ∧
    (∀ (d : StoreData) (reg : BlockRegistry) (b : String) (l : Int) (t : String),
      get_label d (some reg) b = .error .attributeError ∧
      set_label d (some reg) b l t = .error .attributeError) := by
  refine ⟨?_, ?_, rfl, fun d reg b l t => ⟨rfl, rfl⟩⟩
  · intro parent block_name hb
    have hdata : (parent ++ "/" ++ block_name).data =
        parent.data ++ ('/' : Char) :: block_name.data := by
      simp only [String.data_append]
      rw [List.append_assoc]
      rfl
    show Except.ok (get_storage_key_fallback (parent ++ "/" ++ block_name)) = _
    unfold get_storage_key_fallback
    rw [hdata, rsplitLast_append hb]
  · intro block_id hb
    show Except.ok (get_storage_key_fallback block_id) = _
    unfold get_storage_key_fallback
    rw [(rsplitLast_eq_none_iff _ _).mpr hb]

theorem c1_get_storage_key_spec_witness :
    get_storage_key none ("exp1" ++ "/" ++ "block_0001") = .ok ("exp1", "block_0001") ∧
    get_storage_key none "block_0001" = .ok ("", "block_0001") :=
  ⟨(c1_get_storage_key_spec).1 "exp1" "block_0001" (by decide),
   (c1_get_storage_key_spec).2.1 "block_0001" (by decide)⟩

/-- C3: if `atomic_write_json` fails at any point before the atomic rename
(opening or writing the temp file, serialization, or the temp-file fsync),
then the temporary file is removed, the previously stored document at the
target path is unchanged, and the error propagates (the result is the error,
not a success — nothing is retried or swallowed). -/
theorem c3_atomic_write_failure :
    ∀ (α : Type) (fs : FS α) (filepath tmp_path : String) (data : α) (fp : FailPoint),
      (fp = .openTmp ∨ fp = .serializeDoc ∨ fp = .writeTmp ∨ fp = .fsyncTmp) →
      tmp_path ≠ filepath →
      (fs.map Prod.fst).Nodup →
      (atomic_write_json fs filepath tmp_path data (some fp)).1 = .error .ioError ∧
      dictGet (atomic_write_json fs filepath tmp_path data (some fp)).2 filepath =
        dictGet fs filepath ∧
      dictGet (atomic_write_json fs filepath tmp_path data (some fp)).2 tmp_path = none := by
  intro α fs filepath tmp_path data fp hfp hne hnd
  have hne2 : filepath ≠ tmp_path := fun h => hne h.symm
  rcases hfp with rfl | rfl | rfl | rfl
  · have he : atomic_write_json fs filepath tmp_path data (some .openTmp) =
        (.error .ioError, dictRemove fs tmp_path) := rfl
    rw [he]
    exact ⟨rfl, dictGet_dictRemove_ne fs hne2, dictGet_dictRemove_self tmp_path hnd⟩
  · have he : atomic_write_json fs filepath tmp_path data (some .serializeDoc) =
        (.error .ioError,
          dictRemove (dictSet fs tmp_path .halfWritten) tmp_path) := rfl
    rw [he]
    refine ⟨rfl, ?_, ?_⟩
    · rw [dictGet_dictRemove_ne _ hne2, dictGet_dictSet_ne _ _ hne2]
    · exact dictGet_dictRemove_self tmp_path (nodup_keys_dictSet tmp_path _ hnd)
  · have he : atomic_write_json fs filepath tmp_path data (some .writeTmp) =
        (.error .ioError,
          dictRemove (dictSet fs tmp_path .halfWritten) tmp_path) := rfl
    rw [he]
    refine ⟨rfl, ?_, ?_⟩
    · rw [dictGet_dictRemove_ne _ hne2, dictGet_dictSet_ne _ _ hne2]
    · exact dictGet_dictRemove_self tmp_path (nodup_keys_dictSet tmp_path _ hnd)
  · have he : atomic_write_json fs filepath tmp_path data (some .fsyncTmp) =
        (.error .ioError,
          dictRemove
            (dictSet (dictSet fs tmp_path .halfWritten) tmp_path (.complete data))
            tmp_path) := rfl
    rw [he]
    refine ⟨rfl, ?_, ?_⟩
    · rw [dictGet_dictRemove_ne _ hne2, dictGet_dictSet_ne _ _ hne2,
        dictGet_dictSet_ne _ _ hne2]
    · exact dictGet_dictRemove_self tmp_path
        (nodup_keys_dictSet tmp_path _ (nodup_keys_dictSet tmp_path _ hnd))

theorem c3_atomic_write_failure_witness :
    (atomic_write_json [("store.json", FileContent.complete (7 : Int))] "store.json"
        ".store_aaaa.tmp" 8 (some .serializeDoc)).1 = .error .ioError ∧
    dictGet (atomic_write_json [("store.json", FileContent.complete (7 : Int))] "store.json"
        ".store_aaaa.tmp" 8 (some .serializeDoc)).2 "store.json" =
      dictGet [("store.json", FileContent.complete (7 : Int))] "store.json" ∧
    dictGet (atomic_write_json [("store.json", FileContent.complete (7 : Int))] "store.json"
        ".store_aaaa.tmp" 8 (some .serializeDoc)).2 ".store_aaaa.tmp" = none :=
  c3_atomic_write_failure Int [("store.json", FileContent.complete 7)] "store.json"
    ".store_aaaa.tmp" 8 .serializeDoc (Or.inr (Or.inl rfl)) (by decide) (by decide)

theorem read_json_go_step {α : Type} (env : Nat → ReadAttempt α) (attempt fuel : Nat) :
    read_json_go env attempt (fuel + 1) =
      match env attempt with
      | .missing => (.notFound, [])
      | .value doc => (.value doc, [])
      | .failure =>
        if attempt < 2 then
          ((read_json_go env (attempt + 1) fuel).1,
            5 * (attempt + 1) :: (read_json_go env (attempt + 1) fuel).2)
        else read_json_go env (attempt + 1) fuel := rfl

theorem read_json_go_missing {α : Type} {env : Nat → ReadAttempt α} {attempt : Nat}
    (fuel : Nat) (h : env attempt = .missing) :
    read_json_go env attempt (fuel + 1) = (.notFound, []) := by
  rw [read_json_go_step, h]

theorem read_json_go_value {α : Type} {env : Nat → ReadAttempt α} {attempt : Nat}
    {doc : α} (fuel : Nat) (h : env attempt = .value doc) :
    read_json_go env attempt (fuel + 1) = (.value doc, []) := by
  rw [read_json_go_step, h]

theorem read_json_go_failure {α : Type} {env : Nat → ReadAttempt α} {attempt : Nat}
    (fuel : Nat) (h : env attempt = .failure) (ha : attempt < 2) :
    read_json_go env attempt (fuel + 1) =
      ((read_json_go env (attempt + 1) fuel).1,
        5 * (attempt + 1) :: (read_json_go env (attempt + 1) fuel).2) := by
  rw [read_json_go_step, h]
  simp [ha]

theorem read_json_go_failure_last {α : Type} {env : Nat → ReadAttempt α} {attempt : Nat}
    (fuel : Nat) (h : env attempt = .failure) (ha : ¬attempt < 2) :
    read_json_go env attempt (fuel + 1) = read_json_go env (attempt + 1) fuel := by
  rw [read_json_go_step, h]
  simp [ha]

/-- C4: `read_json` returns the distinct not-found result for a missing file
without raising; a transient failure is retried (up to the fixed bound of 3
attempts) with the increasing backoff 0.05 s then 0.10 s; only after all 3
attempts fail does it produce the fatal read error, which is a different
result from not-found. -/
theorem c4_read_json_spec :
    ∀ (α : Type) (env : Nat → ReadAttempt α),
      (env 0 = .missing → read_json env = (.notFound, [])) ∧
      (∀ i, i < 3 → (∀ j, j < i → env j = .failure) →
        (env i = .missing → (read_json env).1 = .notFound) ∧
        (∀ doc, env i = .value doc → (read_json env).1 = .value doc)) ∧
      ((∀ j, j < 3 → env j = .failure) → read_json env = (.fatalError, [5, 10])) ∧
      (ReadResult.fatalError : ReadResult α) ≠ .notFound := by
  intro α env
  refine ⟨?_, ?_, ?_, by intro h; cases h⟩
  · intro h0
    unfold read_json
    rw [read_json_go_missing 2 h0]
  · intro i hi hprev
    interval_cases i
    · constructor
      · intro h0
        unfold read_json
        rw [read_json_go_missing 2 h0]
      · intro doc h0
        unfold read_json
        rw [read_json_go_value 2 h0]
    · have h0 : env 0 = .failure := hprev 0 (by omega)
      constructor
      · intro h1
        unfold read_json
        rw [read_json_go_failure 2 h0 (by omega), read_json_go_missing 1 h1]
      · intro doc h1
        unfold read_json
        rw [read_json_go_failure 2 h0 (by omega), read_json_go_value 1 h1]
    · have h0 : env 0 = .failure := hprev 0 (by omega)
      have h1 : env 1 = .failure := hprev 1 (by omega)
      constructor
      · intro h2
        unfold read_json
        rw [read_json_go_failure 2 h0 (by omega), read_json_go_failure 1 h1 (by omega),
          read_json_go_missing 0 h2]
      · intro doc h2
        unfold read_json
        rw [read_json_go_failure 2 h0 (by omega), read_json_go_failure 1 h1 (by omega),
          read_json_go_value 0 h2]
  · intro hall
    unfold read_json
    rw [read_json_go_failure 2 (hall 0 (by omega)) (by omega),
      read_json_go_failure 1 (hall 1 (by omega)) (by omega),
      read_json_go_failure_last 0 (hall 2 (by omega)) (by omega)]
    rfl

theorem c4_read_json_spec_witness :
    read_json (fun _ => (ReadAttempt.failure : ReadAttempt Int)) = (.fatalError, [5, 10]) ∧
    read_json (fun _ => (ReadAttempt.missing : ReadAttempt Int)) = (.notFound, []) :=
  ⟨(c4_read_json_spec Int (fun _ => .failure)).2.2.1 (fun _ _ => rfl),
   (c4_read_json_spec Int (fun _ => .missing)).1 rfl⟩

theorem lookup_record_set_self (d : StoreData) (b : String) (l : Int) (t : String) :
    lookup_record
        (set_label_key d (get_storage_key_fallback b).1 (get_storage_key_fallback b).2 l t)
        b =
      some { label := l, annotated_at := t } := by
  simp only [lookup_record, set_label_key]
  rw [dictGet_dictSet_self]
  simp only [Option.getD_some]
  rw [dictGet_dictSet_self]

theorem get_label_set_self (d : StoreData) (b : String) (l : Int) (t : String) :
    get_label
        (set_label_key d (get_storage_key_fallback b).1 (get_storage_key_fallback b).2 l t)
        none b = .ok (some l) := by
  rw [get_label_no_registry, lookup_record_set_self]
  rfl

theorem set_label_eq (d : StoreData) (b : String) (l : Int) (t : String) :
    set_label d none b l t =
      .ok
        (set_label_key d (get_storage_key_fallback b).1 (get_storage_key_fallback b).2 l t,
          some
            (set_label_key d (get_storage_key_fallback b).1 (get_storage_key_fallback b).2 l
              t)) := rfl

theorem clear_label_eq (d : StoreData) (b : String) (t : String) :
    clear_label d none b t =
      .ok (clear_label_key d (get_storage_key_fallback b).1 (get_storage_key_fallback b).2 t) :=
  rfl

/-- C5: on a loaded registry-free store, `set_label` overwrites the record at
the storage key with the observed timestamp, bumps the document's
`updated_at`, and synchronously persists the full document, so a second
instance loaded from the same path returns the label; a repeated `set_label`
on the same id leaves exactly one record, holding the second label. -/

theorem c5_set_label_spec :
    ∀ (d : StoreData) (b : String) (l1 l2 : Int) (t1 t2 t3 u : String),
      WFStore d →
      ∃ d1 d2 : StoreData,
        set_label d none b l1 t1 = .ok (d1, some d1) ∧
        get_label d1 none b = .ok (some l1) ∧
        d1.updated_at = t1 ∧
        lookup_record d1 b = some { label := l1, annotated_at := t1 } ∧
        load_or_create (some d1) u t3 = (d1, some d1) ∧
        get_label (load_or_create (some d1) u t3).1 none b = .ok (some l1) ∧
        set_label d1 none b l2 t2 = .ok (d2, some d2) ∧
        get_label d2 none b = .ok (some l2) ∧
        (∀ blocks, dictGet d2.annotations (get_storage_key_fallback b).1 = some blocks →
          blocks.countP (fun q => decide (q.1 = (get_storage_key_fallback b).2)) = 1) := by
  intro d b l1 l2 t1 t2 t3 u hWF
  obtain ⟨hOut, hIn, hSl⟩ := hWF
  refine ⟨set_label_key d (get_storage_key_fallback b).1 (get_storage_key_fallback b).2 l1 t1,
    set_label_key
      (set_label_key d (get_storage_key_fallback b).1 (get_storage_key_fallback b).2 l1 t1)
      (get_storage_key_fallback b).1 (get_storage_key_fallback b).2 l2 t2,
    set_label_eq d b l1 t1, get_label_set_self d b l1 t1, rfl,
    lookup_record_set_self d b l1 t1, rfl, get_label_set_self d b l1 t1,
    set_label_eq _ b l2 t2, get_label_set_self _ b l2 t2, ?_⟩
  intro blocks hblocks
  simp only [set_label_key] at hblocks
  rw [dictGet_dictSet_self] at hblocks
  injection hblocks with hblocks
  rw [← hblocks]
  apply countP_dictSet_nodup
  rw [dictGet_dictSet_self]
  simp only [Option.getD_some]
  apply nodup_keys_dictSet
  cases hg : dictGet d.annotations (get_storage_key_fallback b).1 with
  | none => simp
  | some bl => exact hIn _ (dictGet_mem hg)

theorem c5_set_label_spec_witness :
    ∃ d1 d2 : StoreData,
      set_label
          { username := "alice", created_at := "t0", updated_at := "t0",
            annotations := [] }
          none "block_0001" 1 "t1" = .ok (d1, some d1) ∧
      get_label d1 none "block_0001" = .ok (some 1) ∧
      d1.updated_at = "t1" ∧
      lookup_record d1 "block_0001" = some { label := 1, annotated_at := "t1" } ∧
      load_or_create (some d1) "alice" "t3" = (d1, some d1) ∧
      get_label (load_or_create (some d1) "alice" "t3").1 none "block_0001" = .ok (some 1) ∧
      set_label d1 none "block_0001" 2 "t2" = .ok (d2, some d2) ∧
      get_label d2 none "block_0001" = .ok (some 2) ∧
      (∀ blocks,
        dictGet d2.annotations (get_storage_key_fallback "block_0001").1 = some blocks →
        blocks.countP
          (fun q => decide (q.1 = (get_storage_key_fallback "block_0001").2)) = 1) :=
  c5_set_label_spec
    { username := "alice", created_at := "t0", updated_at := "t0", annotations := [] }
    "block_0001" 1 2 "t1" "t2" "t3" "alice" (by decide)

theorem nodup_inner_getD {d : StoreData} (pp : String)
    (hIn : ∀ p ∈ d.annotations, (p.2.map Prod.fst).Nodup) :
    (((dictGet d.annotations pp).getD []).map Prod.fst).Nodup := by
  cases hg : dictGet d.annotations pp with
  | none => simp
  | some bl => exact hIn _ (dictGet_mem hg)

theorem clear_after_set {d : StoreData} {pp bn : String} (l : Int) (t1 t2 : String)
    (hWF : WFStore d) (hbn : ('/' : Char) ∉ bn.data) :
    (clear_label_key (set_label_key d pp bn l t1) pp bn t2).2 = true ∧
    WFStore (clear_label_key (set_label_key d pp bn l t1) pp bn t2).1 ∧
    dictGet
        ((dictGet (clear_label_key (set_label_key d pp bn l t1) pp bn t2).1.annotations
              pp).getD [])
        bn = none := by
  have hWF1 : WFStore (set_label_key d pp bn l t1) := WFStore_set pp bn l t1 hWF hbn
  have hg1 : dictGet (set_label_key d pp bn l t1).annotations pp =
      some (dictSet ((dictGet d.annotations pp).getD []) bn
        { label := l, annotated_at := t1 }) := by
    simp only [set_label_key]
    exact dictGet_dictSet_self _ _ _
  have hg2 : dictGet
      (dictSet ((dictGet d.annotations pp).getD []) bn { label := l, annotated_at := t1 })
      bn = some { label := l, annotated_at := t1 } := dictGet_dictSet_self _ _ _
  have hit := clear_label_key_hit t2 hg1 hg2
  have hBnd : ((dictSet ((dictGet d.annotations pp).getD []) bn
      { label := l, annotated_at := t1 }).map Prod.fst).Nodup :=
    nodup_keys_dictSet bn _ (nodup_inner_getD pp hWF.2.1)
  refine ⟨by rw [hit], WFStore_clear pp bn t2 hWF1, ?_⟩
  rw [hit]
  by_cases he : (dictRemove
      (dictSet ((dictGet d.annotations pp).getD []) bn { label := l, annotated_at := t1 })
      bn).isEmpty
  · simp only [if_pos he]
    rw [dictGet_dictRemove_self pp hWF1.1]
    rfl
  · simp only [if_neg he]
    rw [dictGet_dictSet_self]
    simp only [Option.getD_some]
    exact dictGet_dictRemove_self bn hBnd

/-- C6: `clear_label` is a persisted removal when the record exists and a
complete no-op (state and disk untouched) when it does not; a `set_label`
followed by `clear_label` on the same id leaves the id unannotated and
excluded from `annotated_block_ids`; and no sequence of set/clear operations
can ever produce an empty inner container mapping — removing the last entry
of a container prunes the container key. -/
theorem c6_clear_label_spec :
    (∀ (d : StoreData) (b t : String), lookup_record d b = none →
      clear_label d none b t = .ok (d, false)) ∧
    (∀ (d : StoreData) (b : String) (l : Int) (t1 t2 : String), WFStore d →
      ∃ d1 d2 : StoreData,
        set_label d none b l t1 = .ok (d1, some d1) ∧
        clear_label d1 none b t2 = .ok (d2, true) ∧
        get_label d2 none b = .ok none ∧
        b ∉ annotated_block_ids d2) ∧
    (∀ (d : StoreData) (ops : List StoreOp), NoEmptyInner d →
      NoEmptyInner (applyOps d ops)) ∧
    (∀ (d : StoreData) (b : String) (l : Int) (t : String),
      set_label d none b l t =
        .ok (applyOp d (.setOp b l t), some (applyOp d (.setOp b l t))) ∧
      clear_label d none b t =
        .ok (clear_label_key d (get_storage_key_fallback b).1
          (get_storage_key_fallback b).2 t)) := by
  refine ⟨?_, ?_, ?_, fun d b l t => ⟨rfl, rfl⟩⟩
  · intro d b t hnone
    rw [clear_label_eq]
    simp only [lookup_record] at hnone
    cases hg : dictGet d.annotations (get_storage_key_fallback b).1 with
    | none => rw [clear_label_key_miss_outer _ t hg]
    | some blocks =>
      rw [hg] at hnone
      simp only [Option.getD_some] at hnone
      rw [clear_label_key_miss_inner t hg hnone]
  · intro d b l t1 t2 hWF
    have hbn : ('/' : Char) ∉ (get_storage_key_fallback b).2.data := fallback_snd_slashfree b
    have hca := @clear_after_set d (get_storage_key_fallback b).1
      (get_storage_key_fallback b).2 l t1 t2 hWF hbn
    refine ⟨set_label_key d (get_storage_key_fallback b).1 (get_storage_key_fallback b).2 l
        t1,
      (clear_label_key
        (set_label_key d (get_storage_key_fallback b).1 (get_storage_key_fallback b).2 l t1)
        (get_storage_key_fallback b).1 (get_storage_key_fallback b).2 t2).1,
      set_label_eq d b l t1, ?_, ?_, ?_⟩
    · rw [clear_label_eq]
      congr 1
      rw [← hca.1]
    · rw [get_label_no_registry]
      simp only [lookup_record]
      rw [hca.2.2]
      rfl
    · intro hmem
      rcases (mem_annotated_block_ids _ b).mp hmem with ⟨p, hp, q, hq, heq⟩
      have hWF2 := hca.2.1
      have hqsl : ('/' : Char) ∉ q.1.data := hWF2.2.2 p hp q hq
      have hkey : get_storage_key_fallback b = (p.1, q.1) := by
        rw [heq]
        exact storage_key_flattenId p.1 hqsl
      have hkey1 : (get_storage_key_fallback b).1 = p.1 := by rw [hkey]
      have hkey2 : (get_storage_key_fallback b).2 = q.1 := by rw [hkey]
      have hlook := hca.2.2
      have hdp := dictGet_of_mem_nodup
        (show (p.1, p.2) ∈ _ by rw [Prod.mk.eta]; exact hp) hWF2.1
      rw [← hkey1] at hdp
      have hdq := dictGet_of_mem_nodup
        (show (q.1, q.2) ∈ p.2 by rw [Prod.mk.eta]; exact hq) (hWF2.2.1 p hp)
      rw [← hkey2] at hdq
      rw [hdp] at hlook
      simp only [Option.getD_some] at hlook
      rw [hdq] at hlook
      cases hlook
  · intro d ops hNE
    induction ops generalizing d with
    | nil => exact hNE
    | cons op rest ih =>
      cases op with
      | setOp b l t => exact ih _ (noEmptyInner_set _ _ l t hNE)
      | clearOp b t => exact ih _ (noEmptyInner_clear _ _ t hNE)

theorem c6_clear_label_spec_witness :
    clear_label
        { username := "alice", created_at := "t0", updated_at := "t0", annotations := [] }
        none "block_0001" "t1" =
      .ok
        ({ username := "alice", created_at := "t0", updated_at := "t0", annotations := [] },
          false) ∧
    (∃ d1 d2 : StoreData,
      set_label
          { username := "alice", created_at := "t0", updated_at := "t0", annotations := [] }
          none "block_0001" 2 "t1" = .ok (d1, some d1) ∧
      clear_label d1 none "block_0001" "t2" = .ok (d2, true) ∧
      get_label d2 none "block_0001" = .ok none ∧
      "block_0001" ∉ annotated_block_ids d2) ∧
    NoEmptyInner
      (applyOps
        { username := "alice", created_at := "t0", updated_at := "t0", annotations := [] }
        [StoreOp.setOp "block_0001" 1 "t1", StoreOp.clearOp "block_0001" "t2"]) :=
  ⟨(c6_clear_label_spec).1
      { username := "alice", created_at := "t0", updated_at := "t0", annotations := [] }
      "block_0001" "t1" (by decide),
   (c6_clear_label_spec).2.1
      { username := "alice", created_at := "t0", updated_at := "t0", annotations := [] }
      "block_0001" 2 "t1" "t2" (by decide),
   (c6_clear_label_spec).2.2.1
      { username := "alice", created_at := "t0", updated_at := "t0", annotations := [] }
      [StoreOp.setOp "block_0001" 1 "t1", StoreOp.clearOp "block_0001" "t2"] (by decide)⟩

/-- C9: on a well-formed registry-free store, every `block_id` reconstructed
by flattening a storage key (as `all_annotations` and `annotated_block_ids`
do) is usable for lookup: `get_label` on the reconstructed id returns the
stored record's label. -/
theorem c9_storage_key_round_trip :
    ∀ d : StoreData, WFStore d →
      (∀ pr ∈ all_annotations d, get_label d none pr.1 = .ok (some pr.2.label)) ∧
      (∀ bid ∈ annotated_block_ids d, ∃ l : Int, get_label d none bid = .ok (some l)) := by
  intro d hWF
  have key : ∀ (pp : String) (blocks : List (String × AnnRec)) (q : String × AnnRec),
      (pp, blocks) ∈ d.annotations → q ∈ blocks →
      get_label d none (flattenId pp q.1) = .ok (some q.2.label) := by
    intro pp blocks q hp hq
    have hqsl : ('/' : Char) ∉ q.1.data := hWF.2.2 (pp, blocks) hp q hq
    have hkey : get_storage_key_fallback (flattenId pp q.1) = (pp, q.1) :=
      storage_key_flattenId pp hqsl
    have hkey1 : (get_storage_key_fallback (flattenId pp q.1)).1 = pp := by rw [hkey]
    have hkey2 : (get_storage_key_fallback (flattenId pp q.1)).2 = q.1 := by rw [hkey]
    rw [get_label_no_registry]
    simp only [lookup_record]
    rw [hkey1, hkey2, dictGet_of_mem_nodup hp hWF.1]
    simp only [Option.getD_some]
    rw [dictGet_of_mem_nodup
      (show (q.1, q.2) ∈ blocks by rw [Prod.mk.eta]; exact hq)
      (hWF.2.1 (pp, blocks) hp)]
    rfl
  constructor
  · intro pr hpr
    rcases mem_all_annotations_elim hpr with ⟨p, hp, q, hq, hpr2⟩
    rw [hpr2]
    exact key p.1 p.2 q (by rw [Prod.mk.eta]; exact hp) hq
  · intro bid hbid
    rcases (mem_annotated_block_ids d bid).mp hbid with ⟨p, hp, q, hq, heq⟩
    refine ⟨q.2.label, ?_⟩
    rw [heq]
    exact key p.1 p.2 q (by rw [Prod.mk.eta]; exact hp) hq

theorem c9_storage_key_round_trip_witness :
    (∀ pr ∈ all_annotations
        { username := "alice", created_at := "t0", updated_at := "t1",
          annotations :=
            [("/data/exp", [("block_0001", { label := 2, annotated_at := "t1" })])] },
      get_label
          { username := "alice", created_at := "t0", updated_at := "t1",
            annotations :=
              [("/data/exp", [("block_0001", { label := 2, annotated_at := "t1" })])] }
          none pr.1 = .ok (some pr.2.label)) ∧
    (∀ bid ∈ annotated_block_ids
        { username := "alice", created_at := "t0", updated_at := "t1",
          annotations :=
            [("/data/exp", [("block_0001", { label := 2, annotated_at := "t1" })])] },
      ∃ l : Int,
        get_label
            { username := "alice", created_at := "t0", updated_at := "t1",
              annotations :=
                [("/data/exp", [("block_0001", { label := 2, annotated_at := "t1" })])] }
            none bid = .ok (some l)) :=
  c9_storage_key_round_trip
    { username := "alice", created_at := "t0", updated_at := "t1",
      annotations := [("/data/exp", [("block_0001", { label := 2, annotated_at := "t1" })])] }
    (by decide)

/-- C2: `compute_consensus` discards absent labels; with no valid labels it
returns `(absent, false)`; otherwise the disagreement flag is set exactly
when two distinct label values occur among the valid labels, and the
consensus is the numerically smallest label among those attaining the
maximum occurrence count; and the five concrete examples of the spec hold. -/
theorem c2_compute_consensus_spec :
    (∀ labels : List (Option Int),
      (validLabels labels = [] → compute_consensus labels = (none, false)) ∧
      (validLabels labels ≠ [] →
        ((compute_consensus labels).2 = true ↔
          ∃ a ∈ validLabels labels, ∃ b ∈ validLabels labels, a ≠ b) ∧
        ∃ c, (compute_consensus labels).1 = some c ∧ c ∈ validLabels labels ∧
          (∀ l ∈ validLabels labels,
            (validLabels labels).count l ≤ (validLabels labels).count c) ∧
          (∀ l ∈ validLabels labels,
            (validLabels labels).count l = (validLabels labels).count c → c ≤ l))) ∧
    compute_consensus [some 1, some 1, some 2] = (some 1, true) ∧
    compute_consensus [some 1, some 1, some 1] = (some 1, false) ∧
    compute_consensus [some 1, some 2, some 3] = (some 1, true) ∧
    compute_consensus [] = (none, false) ∧
    compute_consensus [none, some 2, some 2] = (some 2, false) := by
  refine ⟨?_, by decide, by decide, by decide, by decide, by decide⟩
  intro labels
  refine ⟨compute_consensus_nil, ?_⟩
  intro hne
  rw [compute_consensus_ne_nil hne]
  constructor
  · simp only [decide_eq_true_eq]
    exact counterKeys_length_one_lt _
  · cases hld : leadersOf (validLabels labels) with
    | nil => exact absurd hld (leadersOf_ne_nil hne)
    | cons c rest =>
      have hcmem : c ∈ leadersOf (validLabels labels) := hld ▸ List.mem_cons_self _ _
      have hc := (mem_leadersOf c).mp hcmem
      refine ⟨c, rfl, (mem_counterKeys _ _).mp hc.1, ?_, ?_⟩
      · intro l hlv
        rw [hc.2]
        exact count_le_maxCount hlv
      · intro l hlv hcnt
        have hlmem : l ∈ leadersOf (validLabels labels) :=
          (mem_leadersOf l).mpr ⟨(mem_counterKeys _ _).mpr hlv, by rw [hcnt, hc.2]⟩
        rw [hld] at hlmem
        rcases List.mem_cons.mp hlmem with h1 | h1
        · exact le_of_eq h1.symm
        · have hsort := leadersOf_sorted (validLabels labels)
          rw [hld] at hsort
          exact (List.sorted_cons.mp hsort).1 l h1

theorem c2_compute_consensus_spec_witness :
    ((compute_consensus [some 1, some 2]).2 = true ↔
      ∃ a ∈ validLabels [some 1, some 2], ∃ b ∈ validLabels [some 1, some 2], a ≠ b) ∧
    (∃ c, (compute_consensus [some 1, some 2]).1 = some c ∧
      c ∈ validLabels [some 1, some 2] ∧
      (∀ l ∈ validLabels [some 1, some 2],
        (validLabels [some 1, some 2]).count l ≤ (validLabels [some 1, some 2]).count c) ∧
      (∀ l ∈ validLabels [some 1, some 2],
        (validLabels [some 1, some 2]).count l = (validLabels [some 1, some 2]).count c →
          c ≤ l)) ∧
    compute_consensus ([] : List (Option Int)) = (none, false) :=
  ⟨(((c2_compute_consensus_spec).1 [some 1, some 2]).2 (by decide)).1,
   (((c2_compute_consensus_spec).1 [some 1, some 2]).2 (by decide)).2,
   ((c2_compute_consensus_spec).1 []).1 (by decide)⟩

/-- C7: `build_consensus_table` is total, emits exactly one row per input
block id in input order, fills each row with the annotating users' labels
(a user appears exactly when it has a truthy record for the id) and the
`compute_consensus` of those labels, and its rows do not depend on the
iteration order of the user mapping (up to the order inside each row's own
`user_labels` mapping). -/
theorem c7_build_consensus_table_spec :
    ∀ (users : List (String × List (String × PyRec))) (block_ids : List String),
      (build_consensus_table users block_ids).map (fun r => r.block_id) = block_ids ∧
      (∀ r ∈ build_consensus_table users block_ids,
        r.consensus = (compute_consensus (r.user_labels.map Prod.snd)).1 ∧
        r.disagreement = (compute_consensus (r.user_labels.map Prod.snd)).2 ∧
        (∀ u : String,
          (∃ lbl, (u, lbl) ∈ r.user_labels) ↔
            ∃ p ∈ users, p.1 = u ∧
              ∃ e, dictGet p.2 r.block_id = some e ∧ e.fields ≠ [])) ∧
      (∀ users2 : List (String × List (String × PyRec)), List.Perm users users2 →
        List.Forall₂
          (fun r r2 => r.block_id = r2.block_id ∧
            List.Perm r.user_labels r2.user_labels ∧
            r.consensus = r2.consensus ∧ r.disagreement = r2.disagreement)
          (build_consensus_table users block_ids)
          (build_consensus_table users2 block_ids)) := by
  intro users block_ids
  refine ⟨?_, ?_, ?_⟩
  · induction block_ids with
    | nil => rfl
    | cons b rest ih =>
      show b :: (build_consensus_table users rest).map (fun r => r.block_id) = b :: rest
      rw [ih]
  · intro r hr
    rcases List.mem_map.mp hr with ⟨bid, hbid, rfl⟩
    refine ⟨rfl, rfl, ?_⟩
    intro u
    constructor
    · rintro ⟨lbl, hmem⟩
      rcases List.mem_filterMap.mp hmem with ⟨p, hp, hfp⟩
      refine ⟨p, hp, ?_⟩
      split at hfp
      next e heq =>
        split at hfp
        next hemp => exact absurd hfp (by simp)
        next hemp =>
          injection hfp with hfp
          have h1 : p.1 = u := congrArg Prod.fst hfp
          refine ⟨h1, e, heq, ?_⟩
          simpa [List.isEmpty_iff] using hemp
      next heq => exact absurd hfp (by simp)
    · rintro ⟨p, hp, hpu, e, hge, hne⟩
      refine ⟨dictGet e.fields "label", List.mem_filterMap.mpr ⟨p, hp, ?_⟩⟩
      simp [hge, List.isEmpty_iff, hne, hpu]
  · intro users2 hperm
    induction block_ids with
    | nil => exact List.Forall₂.nil
    | cons b rest ih =>
      refine List.Forall₂.cons ⟨rfl, hperm.filterMap _, ?_, ?_⟩ ih
      · exact congrArg Prod.fst (compute_consensus_perm ((hperm.filterMap _).map Prod.snd))
      · exact congrArg Prod.snd (compute_consensus_perm ((hperm.filterMap _).map Prod.snd))

theorem c7_build_consensus_table_spec_witness :
    (build_consensus_table
        [("alice", [("b1", { fields := [("label", 1)] })]),
         ("bob", [("b1", { fields := [("label", 2)] })])]
        ["b1", "b2"]).map (fun r => r.block_id) = ["b1", "b2"] ∧
    (∀ u : String,
      (∃ lbl,
        (u, lbl) ∈
          ({ block_id := "b1", user_labels := [("alice", some 1), ("bob", some 2)],
              consensus := some 1, disagreement := true } : ConsensusRow).user_labels) ↔
        ∃ p ∈ [("alice", [("b1", ({ fields := [("label", 1)] } : PyRec))]),
            ("bob", [("b1", { fields := [("label", 2)] })])],
          p.1 = u ∧
            ∃ e, dictGet p.2
                ({ block_id := "b1", user_labels := [("alice", some 1), ("bob", some 2)],
                    consensus := some 1, disagreement := true } : ConsensusRow).block_id =
              some e ∧ e.fields ≠ []) ∧
    List.Forall₂
      (fun r r2 => r.block_id = r2.block_id ∧
        List.Perm r.user_labels r2.user_labels ∧
        r.consensus = r2.consensus ∧ r.disagreement = r2.disagreement)
      (build_consensus_table
        [("alice", [("b1", { fields := [("label", 1)] })]),
         ("bob", [("b1", { fields := [("label", 2)] })])]
        ["b1", "b2"])
      (build_consensus_table
        [("bob", [("b1", { fields := [("label", 2)] })]),
         ("alice", [("b1", { fields := [("label", 1)] })])]
        ["b1", "b2"]) :=
  ⟨(c7_build_consensus_table_spec
      [("alice", [("b1", { fields := [("label", 1)] })]),
       ("bob", [("b1", { fields := [("label", 2)] })])] ["b1", "b2"]).1,
   ((c7_build_consensus_table_spec
      [("alice", [("b1", { fields := [("label", 1)] })]),
       ("bob", [("b1", { fields := [("label", 2)] })])] ["b1", "b2"]).2.1
      { block_id := "b1", user_labels := [("alice", some 1), ("bob", some 2)],
        consensus := some 1, disagreement := true } (by decide)).2.2,
   (c7_build_consensus_table_spec
      [("alice", [("b1", { fields := [("label", 1)] })]),
       ("bob", [("b1", { fields := [("label", 2)] })])] ["b1", "b2"]).2.2
      [("bob", [("b1", { fields := [("label", 2)] })]),
       ("alice", [("b1", { fields := [("label", 1)] })])] (by decide)⟩

/-- C8: `export_csv` writes a header of the fixed columns — `block_id`,
`consensus_label`, `final_label`, `has_disagreement`, one `user_<name>_label`
column per username in sorted order, `exported_at` — followed by exactly one
row per input consensus row in input order; consensus/final cells are blank
when absent, a user's cell is blank when the user has no label for the row,
and every data row carries the same export timestamp as its last cell. -/
theorem c8_export_csv_spec :
    ∀ (consensus_rows : List ConsensusRow) (final_labels : List (String × FinalRec))
      (usernames : List String) (exported_at : String),
      (export_csv consensus_rows final_labels usernames exported_at).length =
        consensus_rows.length + 1 ∧
      (∃ su : List String, List.Perm su usernames ∧ List.Sorted strLe su ∧
        (export_csv consensus_rows final_labels usernames exported_at).head? =
          some (["block_id", "consensus_label", "final_label", "has_disagreement"]
            ++ su.map (fun u => "user_" ++ u ++ "_label") ++ ["exported_at"]) ∧
        (∀ i (hi : i < consensus_rows.length),
          (export_csv consensus_rows final_labels usernames exported_at)[i + 1]? =
            some ([(consensus_rows[i]).block_id,
              csvCell (consensus_rows[i]).consensus,
              (match dictGet final_labels (consensus_rows[i]).block_id with
               | some fl_entry => toString fl_entry.final_label
               | none => ""),
              boolCell (consensus_rows[i]).disagreement]
              ++ su.map (fun u =>
                  match dictGet (consensus_rows[i]).user_labels u with
                  | some lbl => csvCell lbl
                  | none => "")
              ++ [exported_at]))) ∧
      (∀ row ∈ (export_csv consensus_rows final_labels usernames exported_at).tail,
        row.getLast? = some exported_at) ∧
      csvCell none = "" ∧
      (∀ (r : ConsensusRow) (u : String),
        dictGet r.user_labels u = none ∨ dictGet r.user_labels u = some none →
        (match dictGet r.user_labels u with
         | some lbl => csvCell lbl
         | none => "") = "") ∧
      (∀ bid : String, dictGet final_labels bid = none →
        (match dictGet final_labels bid with
         | some fl_entry => toString fl_entry.final_label
         | none => "") = "") := by
  intro consensus_rows final_labels usernames exported_at
  refine ⟨?_, ⟨List.insertionSort strLe usernames, List.perm_insertionSort _ _,
    List.sorted_insertionSort _ _, rfl, ?_⟩, ?_, rfl, ?_, ?_⟩
  · simp only [export_csv, List.length_cons, List.length_map]
  · intro i hi
    simp only [export_csv]
    rw [List.getElem?_cons_succ, List.getElem?_map, List.getElem?_eq_getElem hi]
    rfl
  · intro row hrow
    simp only [export_csv, List.tail_cons] at hrow
    rcases List.mem_map.mp hrow with ⟨r, _, rfl⟩
    show ([r.block_id, csvCell r.consensus,
        (match dictGet final_labels r.block_id with
         | some fl_entry => toString fl_entry.final_label
         | none => ""),
        boolCell r.disagreement]
      ++ (List.insertionSort strLe usernames).map (fun u =>
          match dictGet r.user_labels u with
          | some lbl => csvCell lbl
          | none => "")
      ++ [exported_at]).getLast? = some exported_at
    exact List.getLast?_concat _
  · intro r u h
    rcases h with h | h
    · rw [h]
    · rw [h]
      rfl
  · intro bid h
    rw [h]

theorem c8_export_csv_spec_witness :
    (export_csv
        [{ block_id := "b1", user_labels := [("alice", some 1)],
           consensus := some 1, disagreement := false }]
        [("b1", { final_label := 3, set_by := "admin", set_at := "t3" })]
        ["bob", "alice"] "T").length = 1 + 1 ∧
    (["b1", "1", "3", "False", "1", "", "T"] : List String).getLast? = some "T" ∧
    csvCell none = "" :=
  ⟨(c8_export_csv_spec
      [{ block_id := "b1", user_labels := [("alice", some 1)],
         consensus := some 1, disagreement := false }]
      [("b1", { final_label := 3, set_by := "admin", set_at := "t3" })]
      ["bob", "alice"] "T").1,
   (c8_export_csv_spec
      [{ block_id := "b1", user_labels := [("alice", some 1)],
         consensus := some 1, disagreement := false }]
      [("b1", { final_label := 3, set_by := "admin", set_at := "t3" })]
      ["bob", "alice"] "T").2.2.1 ["b1", "1", "3", "False", "1", "", "T"] (by decide),
   (c8_export_csv_spec
      [{ block_id := "b1", user_labels := [("alice", some 1)],
         consensus := some 1, disagreement := false }]
      [("b1", { final_label := 3, set_by := "admin", set_at := "t3" })]
      ["bob", "alice"] "T").2.2.2.1⟩
